import Mathlib

/-!
Verification development for the reTokenizer repository.

The Python sources (`retokenizer/tokenizer.py`, `retokenizer/tokenprocessors.py`,
`retokenizer/tokens.py`) are shallowly embedded below.  Text is a list of
characters, machine integers are `Nat` (all consumed lengths in the source are
`match.end() - offset` of an anchored match, hence non-negative), Python
exceptions become `Except` with the exact message strings, and Python object
identity (tokens are stored in an identity-keyed dict) is modelled by an
allocation counter threaded through the run.  Generators are evaluated eagerly:
the driving loop always exhausts them, and in the source every `raise` in
`IndentScopeProcessor.process` happens before the first `yield`, so the eager
model is observationally equivalent.  The driving `while` loop of
`Tokenizer.tokenize` is embedded with explicit fuel (the Python loop has no
syntactic termination argument); `none` means the fuel ran out.
-/

namespace RT

abbrev Str := List Char

/-- Decimal rendering of a natural number, modelling Python's f-string `{n}`. -/
def digitChar (n : Nat) : Char :=
  match n with
  | 0 => '0' | 1 => '1' | 2 => '2' | 3 => '3' | 4 => '4'
  | 5 => '5' | 6 => '6' | 7 => '7' | 8 => '8' | _ => '9'

def natDigitsAux : Nat → Nat → Str
  | 0, _ => []
  | f + 1, n =>
    if n < 10 then [digitChar n]
    else natDigitsAux f (n / 10) ++ [digitChar (n % 10)]

def natDigits (n : Nat) : Str := natDigitsAux (n + 1) n

/-- First index `i ≥ start` with `s[i] = '\n'`; models Python `str.find("\n", start)`
(returning `none` instead of `-1`). -/
def findNl (s : Str) (start : Nat) : Option Nat :=
  ((s.drop start).findIdx? (fun c => c = '\n')).map (fun j => start + j)

/-- Last index `i < stop` with `s[i] = '\n'`; models Python `str.rfind("\n", 0, stop)`
(returning `none` instead of `-1`). -/
def rfindNl (s : Str) (stop : Nat) : Option Nat :=
  match ((s.take stop).reverse.findIdx? (fun c => c = '\n')) with
  | none => none
  | some j => some ((s.take stop).length - 1 - j)

/-- `TokenMappingView.lineNumber`: `source.count("\n", 0, offset) + 1`. -/
def lineNumber (s : Str) (off : Nat) : Nat := (s.take off).count '\n' + 1

/-- The left boundary used by `TokenMappingView.line`: `rfind + 1` (`0` when absent). -/
def lineLeft (s : Str) (off : Nat) : Nat :=
  match rfindNl s off with
  | none => 0
  | some i => i + 1

/-- `TokenMappingView.line`: `source[left : right]` where `right` is
`source.find("\n", offset)`.  When no newline follows, Python's `find` returns
`-1` and the slice `source[left : -1]` drops the final character; the embedding
mirrors that by using `s.length - 1`. -/
def lineOf (s : Str) (off : Nat) : Str :=
  let left := lineLeft s off
  let right := match findNl s off with
    | none => s.length - 1
    | some i => i
  (s.take right).drop left

/-- `TokenMappingView.lineOffset`: `offset - rfind - 1`. -/
def lineOffset (s : Str) (off : Nat) : Nat := off - lineLeft s off

/-- Tab expansion used by `makePointer`: `line.replace("\t", "    ")`. -/
def expandTabs (line : Str) : Str :=
  (line.map (fun c => if c = '\t' then [' ', ' ', ' ', ' '] else [c])).flatten

/-- The `f"{lineNumber}:{offset}: "` prefix of `makePointer`. -/
def lineMarker (s : Str) (off : Nat) : Str :=
  natDigits (lineNumber s off) ++ [':'] ++ natDigits (lineOffset s off) ++ [':', ' ']

/-- The space count before the caret:
`offset + len(lineMarker) + tabNumber * 4 - 1` (`tabNumber` counts all tabs in
the line).  It is never negative in Python because the marker is at least five
characters long, so `Nat` subtraction is exact here. -/
def pointerOffset (s : Str) (off : Nat) : Nat :=
  lineOffset s off + (lineMarker s off).length + (lineOf s off).count '\t' * 4 - 1

/-- `TokenMappingView.makePointer`: the two-line diagnostic. -/
def makePointer (s : Str) (off : Nat) : Str :=
  lineMarker s off ++ expandTabs (lineOf s off) ++ ['\n'] ++
    List.replicate (pointerOffset s off) ' ' ++ ['^']

/-! ## Tokens

`tokens.py` defines the token classes.  `PyVal` stands for the converted value
stored in a `ValueToken`.  Python object identity is modelled outside the token
payload, by the allocation ids assigned in the driving loop. -/

structure PyVal where
  tag : Nat
  txt : Str
deriving DecidableEq, Repr

inductive Tok where
  | endOfLine
  | endOfFile
  | scopeStart
  | scopeEnd
  | comment (text : Str)
  | value (ty : Nat) (v : PyVal)
  | seqTok (s : Str)
deriving DecidableEq, Repr

/-! ## Processors

Stateless regex-based processors (`NewLineProcessor`, `ClassicScopeProcessor`,
`CommentProcessor`, `ConsumingProcessor`, and configured value / sequence
processors) are pure functions of `(content, offset)` that report an optional
`(token-or-none, consumed)` pair; `Matcher` captures exactly that shape.
`IndentScopeProcessor` is the stateful one and is embedded in full. -/

structure Matcher where
  matchAt : Str → Nat → Option (Option Tok × Nat)

structure IndentState where
  allowMixed : Bool
  level : Nat
  mode : Option Nat
  divider : Nat
deriving DecidableEq, Repr

def initIndent (allowMixed : Bool) : IndentState :=
  { allowMixed := allowMixed, level := 0, mode := none, divider := 0 }

inductive Proc where
  | matcher (m : Matcher)
  | indent (st : IndentState)

/-- The regex `\n(\t+)|\n( +)|\n([^\t ])` matched at position `p` (Python
clamps a negative `pos` to `0`, which `Nat` subtraction at the call site
reproduces).  Returns `(lastindex, match.end())`.  Alternatives are tried left
to right: a tab run, a space run, then a single character that is neither tab
nor space (this includes a second newline). -/
def indentMatch (c : Str) (p : Nat) : Option (Nat × Nat) :=
  match c.get? p with
  | none => none
  | some ch =>
    if ch = '\n' then
      match c.get? (p + 1) with
      | none => none
      | some c1 =>
        if c1 = '\t' then
          some (1, p + 1 + ((c.drop (p + 1)).takeWhile (fun x => x = '\t')).length)
        else if c1 = ' ' then
          some (2, p + 1 + ((c.drop (p + 1)).takeWhile (fun x => x = ' ')).length)
        else
          some (3, p + 2)
    else none

def mixedIndentMsg : Str := ("mixed indent").data

def invalidIndentMsg (divider : Nat) : Str :=
  ("invalid indent multiply, should be ").data ++ natDigits divider

def zeroDivMsg : Str := ("integer division or modulo by zero").data

/-- The tail of `IndentScopeProcessor.process` shared by all non-raising mode
branches: compare `newLevel` with the stored level, emit scope tokens or a
silent skip.  A `difference % divider` with `divider = 0` is Python's
`ZeroDivisionError`; it is modelled faithfully (and proved unreachable from
constructed states).  The `k` emitted pairs share one allocation id: the
source builds a single token object and yields it `k` times. -/
def indentCore (st : IndentState) (newLevel : Nat) (nid : Nat) :
    Except Str (List (Option (Nat × Tok) × Nat) × IndentState × Nat) :=
  if newLevel ≠ st.level then
    let difference := if st.level ≥ newLevel then st.level - newLevel else newLevel - st.level
    if st.divider = 0 then
      .error zeroDivMsg
    else if difference % st.divider ≠ 0 then
      .error (invalidIndentMsg st.divider)
    else
      let tok := if newLevel > st.level then Tok.scopeStart else Tok.scopeEnd
      .ok (List.replicate (difference / st.divider) (some (nid, tok), newLevel),
           { st with level := newLevel }, nid + 1)
  else if newLevel ≠ 0 then
    .ok ([(none, newLevel)],
         (if st.allowMixed then { st with mode := none } else st), nid)
  else
    .ok ([], st, nid)

/-- `IndentScopeProcessor.process`.  The regex is anchored at `offset - 1`,
`newLevel = match.end() - offset`, and the mode bookkeeping follows the
source's `if / elif` chain exactly. -/
def indentProcess (st : IndentState) (c : Str) (off : Nat) (nid : Nat) :
    Except Str (List (Option (Nat × Tok) × Nat) × IndentState × Nat) :=
  match indentMatch c (off - 1) with
  | none => .ok ([], st, nid)
  | some (li, e) =>
    let nl0 := e - off
    if li = 3 then
      indentCore st 0 nid
    else if st.mode = none then
      indentCore { st with mode := some li, divider := nl0 } nl0 nid
    else if st.mode ≠ some li then
      .error mixedIndentMsg
    else
      indentCore st nl0 nid

/-- One processor call, as seen by the driving loop: the list of
`(token-or-none, consumed)` pairs (empty both for `None` results and for
generators that yield nothing — the loop treats the two identically and
neither mutates state), the updated processor, and the updated allocation
counter. -/
def Proc.process (p : Proc) (c : Str) (off : Nat) (nid : Nat) :
    Except Str (List (Option (Nat × Tok) × Nat) × Proc × Nat) :=
  match p with
  | .matcher m =>
    match m.matchAt c off with
    | none => .ok ([], .matcher m, nid)
    | some (none, k) => .ok ([(none, k)], .matcher m, nid)
    | some (some t, k) => .ok ([(some (nid, t), k)], .matcher m, nid + 1)
  | .indent st =>
    match indentProcess st c off nid with
    | .error e => .error e
    | .ok (pairs, st2, nid2) => .ok (pairs, .indent st2, nid2)

/-- `TokenProcessor.finalizer`: the base class yields nothing; the indent
processor yields one fresh `ScopeEndToken()` per unit of remaining depth. -/
def Proc.finalize (p : Proc) (nid : Nat) : List (Nat × Tok) × Nat :=
  match p with
  | .matcher _ => ([], nid)
  | .indent st => ((List.range st.level).map (fun i => (nid + i, Tok.scopeEnd)), nid + st.level)

/-! ## Result and driving loop -/

/-- `TokenizerResult`: the ordered token list and the identity-keyed position
dict (`__tokenMap`), modelled as an association list over allocation ids with
Python-dict insertion (overwrite in place, else append). -/
structure Res where
  tokens : List (Nat × Tok)
  tmap : List (Nat × Nat)
deriving DecidableEq, Repr

def emptyRes : Res := { tokens := [], tmap := [] }

def dictInsert (m : List (Nat × Nat)) (k v : Nat) : List (Nat × Nat) :=
  if m.any (fun p => p.1 = k) then
    m.map (fun p => if p.1 = k then (k, v) else p)
  else m ++ [(k, v)]

/-- `TokenizerResult.addToken`: append to the list and write the dict entry. -/
def addToken (r : Res) (id : Nat) (t : Tok) (off : Nat) : Res :=
  { tokens := r.tokens ++ [(id, t)], tmap := dictInsert r.tmap id off }

/-- Ghost record of one applied `(token, consumed)` pair: the cursor value at
which it was applied (and at which any token was recorded), the consumed
length, and the emitted token with its identity, if any. -/
structure PairT where
  appliedAt : Nat
  consumed : Nat
  tok : Option (Nat × Tok)
deriving DecidableEq, Repr

/-- Ghost record of one successful round: the cursor at the start of the round
and the pairs applied during it. -/
structure RoundT where
  startPos : Nat
  pairs : List PairT
deriving DecidableEq, Repr

/-- The inner `for token, consumed in res` loop of `Tokenizer.tokenize`:
record each non-absent token at the current `pos`, then advance `pos` by the
consumed length.  Also returns the ghost trace of applied pairs. -/
def applyPairs (r : Res) (pos : Nat) (pairs : List (Option (Nat × Tok) × Nat)) :
    Res × Nat × List PairT :=
  match pairs with
  | [] => (r, pos, [])
  | (ot, k) :: rest =>
    let r1 := match ot with
      | none => r
      | some (id, t) => addToken r id t pos
    let out := applyPairs r1 (pos + k) rest
    (out.1, out.2.1, ⟨pos, k, ot⟩ :: out.2.2)

/-- One pass of the `for tokenProcessor in tokenProcessors` loop: the first
processor whose pair list is non-empty wins (`processed` is set per applied
pair, so an empty generator does not break the scan); processors that do not
match are left untouched. -/
def tryRound (ps : List Proc) (c : Str) (pos : Nat) (nid : Nat) :
    Except Str (Option (List Proc × Nat × List (Option (Nat × Tok) × Nat))) :=
  match ps with
  | [] => .ok none
  | p :: rest =>
    match p.process c pos nid with
    | .error e => .error e
    | .ok (pairs, p2, nid2) =>
      if pairs.isEmpty then
        match tryRound rest c pos nid with
        | .error e => .error e
        | .ok none => .ok none
        | .ok (some (rest2, nid3, pairs3)) => .ok (some (p :: rest2, nid3, pairs3))
      else
        .ok (some (p2 :: rest, nid2, pairs))

/-- The `while processed` loop of `Tokenizer.tokenize`, with fuel.  Each fuel
unit is one round; `none` means the fuel ran out before the loop finished. -/
def tokLoop (fuel : Nat) (ps : List Proc) (c : Str) (pos nid : Nat) (r : Res)
    (tr : List RoundT) :
    Option (Except Str (List Proc × Nat × Nat × Res × List RoundT)) :=
  match fuel with
  | 0 => none
  | f + 1 =>
    match tryRound ps c pos nid with
    | .error e => some (.error e)
    | .ok none => some (.ok (ps, pos, nid, r, tr))
    | .ok (some (ps2, nid2, pairs)) =>
      let out := applyPairs r pos pairs
      tokLoop f ps2 c out.2.1 nid2 out.1 (tr ++ [⟨pos, out.2.2⟩])

def unableMsg (c : Str) (pos : Nat) : Str :=
  ("Unable to tokenize:\n").data ++ makePointer c pos

/-- The finalizer pass: every processor's finalizer, in order, each resulting
token added at the final offset. -/
def runFinalizers (ps : List Proc) (len : Nat) (nid : Nat) (r : Res) :
    Res × Nat × List (Nat × Tok × Nat) :=
  match ps with
  | [] => (r, nid, [])
  | p :: rest =>
    let f := p.finalize nid
    let r2 := f.1.foldl (fun acc it => addToken acc it.1 it.2 len) r
    let out := runFinalizers rest len f.2 r2
    (out.1, out.2.1, f.1.map (fun it => (it.1, it.2, len)) ++ out.2.2)

/-- Everything `tokenize` produces on success, plus the ghost traces: the
round-by-round pair trace of the driving loop and the finalizer-phase
emissions (including the terminal end-of-file token). -/
structure FinalOut where
  res : Res
  trace : List RoundT
  ftrace : List (Nat × Tok × Nat)
deriving DecidableEq, Repr

/-- `Tokenizer.tokenize`: run the driving loop from offset `0`; if the final
cursor differs from the input length, raise `TokenizerError` with the rendered
pointer; otherwise run the finalizers and append the end-of-file token. -/
def tokenizeF (fuel : Nat) (ps : List Proc) (c : Str) : Option (Except Str FinalOut) :=
  match tokLoop fuel ps c 0 0 emptyRes [] with
  | none => none
  | some (.error e) => some (.error e)
  | some (.ok (ps2, pos, nid, r, tr)) =>
    if pos ≠ c.length then
      some (.error (unableMsg c pos))
    else
      let fin := runFinalizers ps2 c.length nid r
      let r2 := addToken fin.1 fin.2.1 Tok.endOfFile c.length
      some (.ok { res := r2, trace := tr,
                  ftrace := fin.2.2 ++ [(fin.2.1, Tok.endOfFile, c.length)] })

/-! ## Concrete stateless processors (tokenprocessors.py) -/

/-- `NewLineProcessor`: the regex `\r?\n` anchored at the offset. -/
def newlineMatcher : Matcher :=
  ⟨fun c off =>
    match c.get? off with
    | none => none
    | some ch =>
      if ch = '\n' then some (some Tok.endOfLine, 1)
      else if ch = '\r' then
        match c.get? (off + 1) with
        | none => none
        | some c2 => if c2 = '\n' then some (some Tok.endOfLine, 2) else none
      else none⟩

/-- `ClassicScopeProcessor`: the escaped start / end characters as a two-way
alternation. -/
def classicMatcher (sc ec : Char) : Matcher :=
  ⟨fun c off =>
    match c.get? off with
    | none => none
    | some ch =>
      if ch = sc then some (some Tok.scopeStart, 1)
      else if ch = ec then some (some Tok.scopeEnd, 1)
      else none⟩

/-- `CommentProcessor`: the marker followed by one or more non-newline
characters (`.` does not match a newline); the token carries the text after
the marker. -/
def commentMatcher (marker : Char) : Matcher :=
  ⟨fun c off =>
    match c.get? off with
    | none => none
    | some ch =>
      if ch = marker then
        let text := (c.drop (off + 1)).takeWhile (fun x => ¬ x = '\n')
        if text.length = 0 then none
        else some (some (Tok.comment text), 1 + text.length)
      else none⟩

/-- `ConsumingProcessor`: a greedy one-or-more run over a character set,
emitting no token. -/
def consumingMatcher (chars : List Char) : Matcher :=
  ⟨fun c off =>
    let run := ((c.drop off).takeWhile (fun x => chars.contains x)).length
    if run = 0 then none else some (none, run)⟩

/-! ## ValueProcessor and its merge (`__or__`)

`ValueProcessor` keeps the compiled alternation (modelled as the ordered list
of alternative matchers, one capturing group per configured expression — the
constructor wraps any group-free expression in its own group), the parallel
`__types` list, and the `__constructors` dict (modelled by its lookup
function, which is all `process` uses).  `__or__` makes a shallow copy: the
copy gets a freshly concatenated pattern, while the `__types` list and the
`__constructors` dict are the very objects of the left operand, extended and
updated in place — so the merge also mutates the left operand's list and dict
(its compiled pattern alone stays what it was). -/

/-- One alternative of the compiled alternation: anchored at the offset it
optionally yields the captured group text and the consumed length. -/
structure VPat where
  matchAt : Str → Nat → Option (Str × Nat)

/-- The default conversion `constructor = tp` (calling the type on the matched
text). -/
def defaultCtor (ty : Nat) (s : Str) : PyVal := ⟨ty, s⟩

structure ValueProc where
  pats : List VPat
  types : List Nat
  constructors : Nat → Option (Str → PyVal)

/-- Python's ordered alternation: the first alternative that matches at the
offset wins; its (1-based) group index is `match.lastindex`, here returned
0-based. -/
def vfirstMatch (pats : List VPat) (c : Str) (off : Nat) : Option (Nat × Str × Nat) :=
  match pats with
  | [] => none
  | p :: rest =>
    match p.matchAt c off with
    | some (txt, k) => some (0, txt, k)
    | none => (vfirstMatch rest c off).map (fun r => (r.1 + 1, r.2.1, r.2.2))

/-- `ValueProcessor.process`: find the winning alternative, look its semantic
type up in `__types`, convert with the custom constructor if present (else the
type itself), and return the value token with the consumed length. -/
def ValueProc.process (vp : ValueProc) (c : Str) (off : Nat) : Option (Tok × Nat) :=
  match vfirstMatch vp.pats c off with
  | none => none
  | some (i, txt, k) =>
    let ty := vp.types.getD i 0
    let ctor := match vp.constructors ty with
      | some f => f
      | none => defaultCtor ty
    some (Tok.value ty (ctor txt), k)

/-- `dict.update`: entries of the right dict win. -/
def dictUpdate (a b : Nat → Option (Str → PyVal)) : Nat → Option (Str → PyVal) :=
  fun t => match b t with
    | some f => some f
    | none => a t

/-- `ValueProcessor.__or__`.  First component: the returned shallow copy (new
concatenated pattern, shared extended types list, shared updated dict).
Second component: the left operand as it is left after the call (its own
pattern, but the same extended list and updated dict, since `copy` shares
them). -/
def ValueProc.orMerge (a b : ValueProc) : ValueProc × ValueProc :=
  let ts := a.types ++ b.types
  let cs := dictUpdate a.constructors b.constructors
  (⟨a.pats ++ b.pats, ts, cs⟩, ⟨a.pats, ts, cs⟩)

/-! ## Decidable extractors over tokenizer outcomes (used to state concrete
facts about whole runs) -/

def runOk (o : Option (Except Str FinalOut)) : Bool :=
  match o with
  | some (.ok _) => true
  | _ => false

def traceOf (o : Option (Except Str FinalOut)) : List RoundT :=
  match o with
  | some (.ok out) => out.trace
  | _ => []

def resOf (o : Option (Except Str FinalOut)) : Res :=
  match o with
  | some (.ok out) => out.res
  | _ => emptyRes

def ftraceOf (o : Option (Except Str FinalOut)) : List (Nat × Tok × Nat) :=
  match o with
  | some (.ok out) => out.ftrace
  | _ => []

def errOf (o : Option (Except Str FinalOut)) : Option Str :=
  match o with
  | some (.error e) => some e
  | _ => none

/-- Letters consumed silently in the concrete test tokenizers
(`ConsumingProcessor("abcdefghijklmnopqrstuvwxyz")`). -/
def letters : List Char := ("abcdefghijklmnopqrstuvwxyz").data

/-- A tokenizer configuration used by several concrete runs:
`Tokenizer([IndentScopeProcessor(), NewLineProcessor(), ConsumingProcessor(letters)])`. -/
def procsA : List Proc :=
  [Proc.indent (initIndent false), Proc.matcher newlineMatcher,
   Proc.matcher (consumingMatcher letters)]

/-- Same configuration but with `IndentScopeProcessor(allowMixed=True)`. -/
def procsM : List Proc :=
  [Proc.indent (initIndent true), Proc.matcher newlineMatcher,
   Proc.matcher (consumingMatcher letters)]

/-! ## C7 / C10: merge of value processors -/

theorem dictUpdate_assoc (a b c : Nat → Option (Str → PyVal)) :
    dictUpdate (dictUpdate a b) c = dictUpdate a (dictUpdate b c) := by
  funext t
  simp only [dictUpdate]
  cases c t <;> cases b t <;> rfl

theorem orMerge_assoc_struct (a b c : ValueProc) :
    ((a.orMerge b).1.orMerge c).1 = (a.orMerge (b.orMerge c).1).1 := by
  simp only [ValueProc.orMerge, List.append_assoc, dictUpdate_assoc]

/-- C7: merging value processors `(A | B) | C` and `A | (B | C)` yields
processors that classify every `(content, offset)` identically — the same
match / no-match outcome, the same winning semantic type, the same converted
value, ties broken by the flattened left-to-right alternative order.  (The
merged pattern string, types list and constructors dict are even structurally
identical: pattern and list concatenation and right-biased dict update are
associative, and both orders flatten to A's, then B's, then C's patterns.) -/
theorem C7_merge_assoc (a b c : ValueProc) (s : Str) (off : Nat) :
    ((a.orMerge b).1.orMerge c).1.process s off
      = (a.orMerge (b.orMerge c).1).1.process s off := by
  rw [orMerge_assoc_struct]

/-- C10: `A | B` returns a shallow copy sharing A's types list and
constructors dict: both the copy and the mutated A hold the concatenated
types list and the updated dict (where B's entries are present, overriding
A's, and lookups absent from B fall back to A), while A keeps its own compiled
pattern and only the copy gets the concatenated one. -/
theorem C10_or_shallow_copy (a b : ValueProc) :
    (a.orMerge b).2.pats = a.pats ∧
    (a.orMerge b).1.pats = a.pats ++ b.pats ∧
    (a.orMerge b).2.types = a.types ++ b.types ∧
    (a.orMerge b).1.types = (a.orMerge b).2.types ∧
    (a.orMerge b).1.constructors = (a.orMerge b).2.constructors ∧
    (∀ t f, b.constructors t = some f → (a.orMerge b).2.constructors t = some f) ∧
    (∀ t, b.constructors t = none → (a.orMerge b).2.constructors t = a.constructors t) := by
  refine ⟨rfl, rfl, rfl, rfl, rfl, ?_, ?_⟩
  · intro t f h
    simp only [ValueProc.orMerge, dictUpdate, h]
  · intro t h
    simp only [ValueProc.orMerge, dictUpdate, h]

/-! ## Plumbing lemmas for concrete-run facts -/

theorem runOk_eq {o : Option (Except Str FinalOut)} (h : runOk o = true) :
    ∃ out, o = some (Except.ok out) := by
  cases o with
  | none => simp [runOk] at h
  | some x =>
    cases x with
    | error e => simp [runOk] at h
    | ok out => exact ⟨out, rfl⟩

theorem errOf_eq {o : Option (Except Str FinalOut)} {e : Str} (h : errOf o = some e) :
    o = some (Except.error e) := by
  cases o with
  | none => simp [errOf] at h
  | some x =>
    cases x with
    | error e2 => simp only [errOf, Option.some.injEq] at h; rw [h]
    | ok out => simp [errOf] at h

/-- Projection used to compare `indentProcess` outcomes decidably. -/
def exceptErr {A : Type} (x : Except Str A) : Option Str :=
  match x with
  | .error e => some e
  | .ok _ => none

theorem unableMsg_head (c : Str) (pos : Nat) : (unableMsg c pos).head? = some 'U' := rfl

/-! ## Concrete inputs for counterexamples and witnesses -/

/-- `"a\n\tb\nc"`: one tab-indented line, then a dedent to depth 0. -/
def srcDedent0 : Str := ("a\n\tb\nc").data

/-- `"a\n b\n  c\nd"`: indent unit 1 space, up to depth 2, then a two-level
dedent to depth 0 in a single step. -/
def srcDoubleDedent : Str := ("a\n b\n  c\nd").data

/-- `"a\n b\n  c\n   d\n e\nf"`: up to depth 3 one space at a time, then a
two-level dedent to the nonzero depth 1 in a single step. -/
def srcDeepDedent : Str := ("a\n b\n  c\n   d\n e\nf").data

/-- `"a\n  b"`: a single two-space indent left open at end of stream. -/
def srcOpenIndent : Str := ("a\n  b").data

/-- `"a\n\t\tb\n  c"`: the unit locks to tabs at depth 2, then a space line at
the same depth 2. -/
def srcSameDepthSpaces : Str := ("a\n\t\tb\n  c").data

/-- `"a\n\tb\n  c"`: the unit locks to tabs, then a depth-changing space line. -/
def srcMixed : Str := ("a\n\tb\n  c").data

/-! ## C2: the progress claim and its counterexample -/

/-- C2 is false as stated: on `"a\n\tb\nc"` the dedent to depth 0 makes the
indent processor yield a `(ScopeEndToken, 0)` pair — `consumed` is `newLevel`,
which is `0` there — so a successful round applies a pair with consumed length
0 and leaves `pos` unchanged.  This run of `tokenize` nevertheless returns
successfully, exhibiting the zero-length pair in its trace. -/
theorem C2_counterexample :
    ¬ (∀ (fuel : Nat) (ps : List Proc) (c : Str) (out : FinalOut),
        tokenizeF fuel ps c = some (Except.ok out) →
        ∀ r ∈ out.trace, ∀ e ∈ r.pairs, 0 < e.consumed) := by
  intro h
  obtain ⟨out, hout⟩ := runOk_eq (o := tokenizeF 20 procsA srcDedent0) (by decide)
  have hz : out.trace.any (fun r => r.pairs.any (fun e => e.consumed == 0)) = true := by
    have hz0 : (traceOf (tokenizeF 20 procsA srcDedent0)).any
        (fun r => r.pairs.any (fun e => e.consumed == 0)) = true := by decide
    rwa [hout] at hz0
  obtain ⟨r, hr, hrp⟩ := List.any_eq_true.mp hz
  obtain ⟨e, he, hec⟩ := List.any_eq_true.mp hrp
  have hlt := h 20 procsA srcDedent0 out hout r hr e he
  have h0 : e.consumed = 0 := by simpa using hec
  omega

/-! ## C3: recorded offsets within a multi-pair step -/

/-- C3 is false as stated: on `"a\n b\n  c\n   d\n e\nf"` the single matched
step that dedents from depth 3 to depth 1 yields two `(ScopeEndToken, 1)`
pairs, and the driving loop advances `pos` between them, so the second token
is recorded at the round's starting offset plus one, not at the starting
offset. -/
theorem C3_counterexample :
    ¬ (∀ (fuel : Nat) (ps : List Proc) (c : Str) (out : FinalOut),
        tokenizeF fuel ps c = some (Except.ok out) →
        ∀ r ∈ out.trace, ∀ e ∈ r.pairs, e.tok.isSome = true →
          e.appliedAt = r.startPos) := by
  intro h
  obtain ⟨out, hout⟩ := runOk_eq (o := tokenizeF 30 procsA srcDeepDedent) (by decide)
  have hz : out.trace.any
      (fun r => r.pairs.any (fun e => e.tok.isSome && (e.appliedAt != r.startPos))) = true := by
    have hz0 : (traceOf (tokenizeF 30 procsA srcDeepDedent)).any
        (fun r => r.pairs.any (fun e => e.tok.isSome && (e.appliedAt != r.startPos)))
          = true := by decide
    rwa [hout] at hz0
  obtain ⟨r, hr, hrp⟩ := List.any_eq_true.mp hz
  obtain ⟨e, he, hec⟩ := List.any_eq_true.mp hrp
  simp only [Bool.and_eq_true, bne_iff_ne] at hec
  exact hec.2 (h 30 procsA srcDeepDedent out hout r hr e he hec.1)

/-! ## C4: identity-keyed position mapping -/

/-- Evaluation of the code at the failing input for C4.  On
`"a\n b\n  c\nd"` the two-level dedent builds one `ScopeEndToken` object and
yields it twice, so the token sequence holds the same identity (id 5) twice
while the identity-keyed dict gains a single entry for it: 8 tokens but 7
mapping entries, violating the spec's invariant that every emitted token has
its own entry created with its emission offset. -/
theorem C4_shared_identity :
    runOk (tokenizeF 20 procsA srcDoubleDedent) = true ∧
    (resOf (tokenizeF 20 procsA srcDoubleDedent)).tokens.length = 8 ∧
    (resOf (tokenizeF 20 procsA srcDoubleDedent)).tmap.length = 7 ∧
    (resOf (tokenizeF 20 procsA srcDoubleDedent)).tokens.countP
      (fun it => it.1 == 5) = 2 := by
  refine ⟨by decide, by decide, by decide, by decide⟩

/-! ## C5: indent balance -/

/-- C5 is false as stated: on `"a\n  b"` the indent processor infers unit
width 2, emits a single scope-start for the depth-2 indent, and at end of
stream the finalizer emits `range(level)`, i.e. two scope-end tokens —
`level`-many, not `level // divider`-many — so one start faces two ends even
though the whole run completes without error.  (In this configuration the
indent processor is the only source of scope tokens.) -/
theorem C5_counterexample :
    ¬ (∀ (fuel : Nat) (c : Str) (out : FinalOut),
        tokenizeF fuel procsA c = some (Except.ok out) →
        out.res.tokens.countP (fun it => it.2 == Tok.scopeStart)
          = out.res.tokens.countP (fun it => it.2 == Tok.scopeEnd)) := by
  intro h
  obtain ⟨out, hout⟩ := runOk_eq (o := tokenizeF 20 procsA srcOpenIndent) (by decide)
  have h1 : (resOf (tokenizeF 20 procsA srcOpenIndent)).tokens.countP
      (fun it => it.2 == Tok.scopeStart) = 1 := by decide
  have h2 : (resOf (tokenizeF 20 procsA srcOpenIndent)).tokens.countP
      (fun it => it.2 == Tok.scopeEnd) = 2 := by decide
  rw [hout] at h1 h2
  have := h 20 srcOpenIndent out hout
  simp only [resOf] at h1 h2
  omega

/-! ## C6: mixed indent and the unit lock -/

/-- C6 is false as stated: with mixing tolerated, a line whose depth equals
the current nonzero depth does *not* release the unit lock when it uses the
other character kind — the mixed-indent check fires first.  The state below
(`allowMixed`, depth 2, locked to tabs with width 2) is exactly the processor
state after tokenizing `"a\n\t\tb"`, and the content `"\n  x"` at offset 1 is
a space line of depth 2; the claim asserts a release and no error, but
`process` raises the mixed-indent error. -/
theorem C6_counterexample :
    ¬ (∀ (st : IndentState) (c : Str) (off nid li e : Nat),
        st.allowMixed = true → st.mode ≠ none →
        indentMatch c (off - 1) = some (li, e) → li ≠ 3 →
        e - off = st.level → st.level ≠ 0 →
        ∃ pairs st2 nid2,
          indentProcess st c off nid = .ok (pairs, st2, nid2) ∧ st2.mode = none) := by
  intro h
  obtain ⟨pairs, st2, nid2, heq, _⟩ :=
    h ⟨true, 2, some 1, 2⟩ (['\n', ' ', ' ', 'x']) 1 0 2 3
      rfl (by decide) (by decide) (by decide) (by decide) (by decide)
  have hE : exceptErr (indentProcess ⟨true, 2, some 1, 2⟩ (['\n', ' ', ' ', 'x']) 1 0)
      = some mixedIndentMsg := by decide
  rw [heq] at hE
  simp [exceptErr] at hE

/-! ## C8: the caret column of `makePointer` -/

/-- The text after the last newline of a rendered string. -/
def afterLastNl (s : Str) : Str :=
  s.foldl (fun acc c => if c = '\n' then [] else acc ++ [c]) []

/-- The (0-based) display column of the caret in a rendered pointer: the caret
is the last character of the line after the newline. -/
def caretColOf (out : Str) : Nat := (afterLastNl out).length - 1

/-- Tabs in the token's line that lie before the token. -/
def precedingTabs (s : Str) (off : Nat) : Nat :=
  ((lineOf s off).take (lineOffset s off)).count '\t'

/-- C8 is false as stated: the caret column of the rendered pointer does not
equal the prefix width plus the token's line offset adjusted by the expanded
width of the tabs preceding the token (which is where the token's start is
displayed).  On `"12#"` at offset 2 the line has no tabs, the prefix `"1:2: "`
is 5 wide and the line offset is 2, so the token is displayed at column 7 —
but the code positions the caret at column 6 (it subtracts one, and in general
counts all tabs of the line at 4 columns each rather than the preceding tabs
at their 3-column expansion surplus). -/
theorem C8_counterexample :
    ¬ (∀ (s : Str) (off : Nat),
        caretColOf (makePointer s off)
          = (lineMarker s off).length + lineOffset s off + 3 * precedingTabs s off) := by
  intro h
  exact absurd (h (("12#").data) 2) (by decide)

/-! ## C9: error reporting -/

/-- C9 is false as stated: not every failure of `tokenize` carries a rendered
diagnostic pointer.  On `"a\n\tb\n  c"` the indent processor raises
`TokenizerError("mixed indent")`, which propagates out of `tokenize` as-is;
its message is not of the pointer-carrying form
`"Unable to tokenize:\n" + makePointer(...)` for any offset (every such
message starts with `'U'`). -/
theorem C9_counterexample :
    ¬ (∀ (fuel : Nat) (ps : List Proc) (c : Str) (e : Str),
        tokenizeF fuel ps c = some (Except.error e) →
        ∃ off, e = unableMsg c off) := by
  intro h
  have hrun : errOf (tokenizeF 20 procsA srcMixed) = some mixedIndentMsg := by decide
  obtain ⟨off, hoff⟩ := h 20 procsA srcMixed mixedIndentMsg (errOf_eq hrun)
  have hU : (unableMsg srcMixed off).head? = some 'U' := unableMsg_head _ _
  rw [← hoff] at hU
  exact absurd hU (by decide)

/-! ## C8 amended: the caret column the code actually produces -/

theorem foldl_no_nl (y : Str) (hy : ∀ c ∈ y, c ≠ '\n') :
    ∀ acc : Str,
      y.foldl (fun acc c => if c = '\n' then [] else acc ++ [c]) acc = acc ++ y := by
  induction y with
  | nil => intro acc; simp
  | cons c rest ih =>
    intro acc
    rw [List.foldl_cons, if_neg (hy c (by simp))]
    rw [ih (fun x hx => hy x (by simp [hx]))]
    simp

theorem afterLastNl_append (x y : Str) (hy : ∀ c ∈ y, c ≠ '\n') :
    afterLastNl (x ++ '\n' :: y) = y := by
  simp only [afterLastNl, List.foldl_append, List.foldl_cons, if_pos rfl]
  exact foldl_no_nl y hy []

theorem caretColOf_makePointer (s : Str) (off : Nat) :
    caretColOf (makePointer s off) = pointerOffset s off := by
  have hsplit : makePointer s off
      = (lineMarker s off ++ expandTabs (lineOf s off))
          ++ '\n' :: (List.replicate (pointerOffset s off) ' ' ++ ['^']) := by
    simp [makePointer, List.append_assoc]
  have hy : ∀ c ∈ List.replicate (pointerOffset s off) ' ' ++ ['^'], c ≠ '\n' := by
    intro c hc
    rcases List.mem_append.mp hc with h | h
    · rw [List.eq_of_mem_replicate h]; decide
    · simp only [List.mem_singleton] at h; rw [h]; decide
  rw [caretColOf, hsplit, afterLastNl_append _ _ hy]
  simp

/-- C8 amended: `makePointer` renders the marker, the source line with every
tab replaced by four spaces, and a caret line; the caret's display column is
`lineOffset + len(marker) + 4 * (number of tabs anywhere in the line) - 1` —
all tabs of the line, counted at four columns each, minus one — rather than
the column where the token is displayed.  The two coincide exactly when the
line contains exactly one tab and that tab precedes the token (then
`4*1 - 1 = 3*1`), which also witnesses the claimed formula. -/
theorem C8_amended (s : Str) (off : Nat) :
    makePointer s off
      = lineMarker s off ++ expandTabs (lineOf s off) ++ ['\n']
          ++ List.replicate (pointerOffset s off) ' ' ++ ['^'] ∧
    caretColOf (makePointer s off)
      = lineOffset s off + (lineMarker s off).length
          + 4 * (lineOf s off).count '\t' - 1 ∧
    ((lineOf s off).count '\t' = 1 ∧ precedingTabs s off = 1 →
      caretColOf (makePointer s off)
        = (lineMarker s off).length + lineOffset s off + 3 * precedingTabs s off) := by
  refine ⟨rfl, ?_, ?_⟩
  · rw [caretColOf_makePointer, pointerOffset, Nat.mul_comm]
  · intro hh
    rw [caretColOf_makePointer, pointerOffset, hh.1, hh.2]
    omega

/-- Witness for C8 amended on `"\tab\n"` at offset 1: the line is `"\tab"`,
its single tab precedes the token, and the caret column is
`1 + 5 + 4*1 - 1 = 9 = 5 + 1 + 3`. -/
theorem C8_amended_witness :
    caretColOf (makePointer (("\tab\n").data) 1) = 9 ∧
    caretColOf (makePointer (("\tab\n").data) 1)
      = (lineMarker (("\tab\n").data) 1).length + lineOffset (("\tab\n").data) 1
          + 3 * precedingTabs (("\tab\n").data) 1 := by
  refine ⟨by decide, (C8_amended (("\tab\n").data) 1).2.2 (by decide)⟩

/-! ## C6 amended: the unit lock, mixed-indent failures and the release rule -/

theorem invalidIndentMsg_ne_mixed (d : Nat) : invalidIndentMsg d ≠ mixedIndentMsg := by
  intro h
  have h1 : (invalidIndentMsg d).head? = some 'i' := rfl
  rw [h] at h1
  exact absurd h1 (by decide)

/-- The only errors `indentCore` can produce are the division-by-zero error
and the invalid-multiple error naming the current divider. -/
theorem indentCore_error (st : IndentState) (nl nid : Nat) {e : Str}
    (h : indentCore st nl nid = .error e) :
    e = zeroDivMsg ∨ e = invalidIndentMsg st.divider := by
  simp only [indentCore] at h
  split_ifs at h
  all_goals
    first
      | exact Or.inl (Except.error.inj h).symm
      | exact Or.inr (Except.error.inj h).symm

theorem indentCore_no_mixed (st : IndentState) (nl nid : Nat) :
    exceptErr (indentCore st nl nid) ≠ some mixedIndentMsg := by
  intro hmix
  cases hE : indentCore st nl nid with
  | ok out => rw [hE] at hmix; simp [exceptErr] at hmix
  | error e =>
    rw [hE] at hmix
    simp only [exceptErr, Option.some.injEq] at hmix
    rcases indentCore_error st nl nid hE with h | h
    · rw [hmix] at h; exact absurd h (by decide)
    · rw [hmix] at h; exact invalidIndentMsg_ne_mixed _ h.symm

/-- C6 amended: while the unit lock is held, a whitespace match of the other
character kind always fails with the mixed-indent error — `allowMixed` does
not bypass that check; what `allowMixed` enables is release: a line of the
*locked* kind whose depth equals the current nonzero depth clears the lock
(emitting a silent skip), after which the next match is free to establish
either kind — with the lock clear, no mixed-indent error is possible. -/
theorem C6_amended :
    (∀ (st : IndentState) (c : Str) (off nid li e m : Nat),
      st.mode = some m →
      indentMatch c (off - 1) = some (li, e) → li ≠ 3 → li ≠ m →
      indentProcess st c off nid = .error mixedIndentMsg) ∧
    (∀ (st : IndentState) (c : Str) (off nid li e : Nat),
      st.allowMixed = true → st.mode = some li →
      indentMatch c (off - 1) = some (li, e) → li ≠ 3 →
      e - off = st.level → st.level ≠ 0 →
      indentProcess st c off nid
        = .ok ([(none, st.level)], { st with mode := none }, nid)) ∧
    (∀ (st : IndentState) (c : Str) (off nid : Nat),
      st.mode = none →
      exceptErr (indentProcess st c off nid) ≠ some mixedIndentMsg) := by
  refine ⟨?_, ?_, ?_⟩
  · intro st c off nid li e m hm hmatch h3 hne
    have hmne : m ≠ li := Ne.symm hne
    simp [indentProcess, hmatch, h3, hm, hmne]
  · intro st c off nid li e hmix hm hmatch h3 hlev hnz
    have h5 : indentProcess st c off nid = indentCore st (e - off) nid := by
      simp [indentProcess, hmatch, h3, hm]
    rw [h5, hlev, indentCore]
    rw [if_neg (by simp), if_pos hnz, hmix]
    simp
  · intro st c off nid hm
    cases hmatch : indentMatch c (off - 1) with
    | none => simp [indentProcess, hmatch, exceptErr]
    | some r =>
      rcases r with ⟨li, e⟩
      by_cases h3 : li = 3
      · have h5 : indentProcess st c off nid = indentCore st 0 nid := by
          simp [indentProcess, hmatch, h3]
        rw [h5]
        exact indentCore_no_mixed _ _ _
      · have h5 : indentProcess st c off nid
            = indentCore { st with mode := some li, divider := e - off } (e - off) nid := by
          simp [indentProcess, hmatch, h3, hm]
        rw [h5]
        exact indentCore_no_mixed _ _ _

/-- Witness for C6 amended at concrete states: a space line against a tab
lock of depth 1 fails even though it changes depth; a tab line at the locked
depth 2 releases the lock under `allowMixed`; and with the lock clear the
space line `"\n x"` produces no mixed-indent error. -/
theorem C6_amended_witness :
    indentProcess ⟨false, 1, some 1, 1⟩ (['\n', ' ', 'x']) 1 0 = .error mixedIndentMsg ∧
    indentProcess ⟨true, 2, some 1, 2⟩ (['\n', '\t', '\t', 'x']) 1 0
      = .ok ([(none, 2)], ⟨true, 2, none, 2⟩, 0) ∧
    exceptErr (indentProcess (initIndent false) (['\n', ' ', 'x']) 1 0)
      ≠ some mixedIndentMsg := by
  refine ⟨?_, ?_, ?_⟩
  · exact C6_amended.1 ⟨false, 1, some 1, 1⟩ (['\n', ' ', 'x']) 1 0 2 2 1 rfl
      (by decide) (by decide) (by decide)
  · exact C6_amended.2.1 ⟨true, 2, some 1, 2⟩ (['\n', '\t', '\t', 'x']) 1 0 1 3 rfl rfl
      (by decide) (by decide) (by decide) (by decide)
  · exact C6_amended.2.2 (initIndent false) (['\n', ' ', 'x']) 1 0 rfl

/-! ## C1: the consumed spans partition the input -/

/-- The `(position, consumed)` spans of a list of applied pairs. -/
def pairsSpans (ps : List PairT) : List (Nat × Nat) :=
  ps.map (fun e => (e.appliedAt, e.consumed))

/-- All spans of a run, in application order. -/
def traceSpans (tr : List RoundT) : List (Nat × Nat) :=
  (tr.map (fun r => pairsSpans r.pairs)).flatten

/-- The spans are contiguous starting at `p`: each starts exactly where the
previous one ended. -/
def chainB : Nat → List (Nat × Nat) → Bool
  | _, [] => true
  | p, (q, k) :: rest => (q == p) && chainB (p + k) rest

/-- Where the spans end: `p` plus the total consumed length. -/
def spansEnd (p : Nat) (l : List (Nat × Nat)) : Nat :=
  l.foldl (fun acc s => acc + s.2) p

/-- Does span `s` cover input index `i`? -/
def coversB (i : Nat) (s : Nat × Nat) : Bool :=
  decide (s.1 ≤ i ∧ i < s.1 + s.2)

theorem spansEnd_append (p : Nat) (xs ys : List (Nat × Nat)) :
    spansEnd p (xs ++ ys) = spansEnd (spansEnd p xs) ys := by
  simp [spansEnd, List.foldl_append]

theorem chainB_append (xs : List (Nat × Nat)) :
    ∀ (p : Nat) (ys : List (Nat × Nat)),
      chainB p (xs ++ ys) = (chainB p xs && chainB (spansEnd p xs) ys) := by
  induction xs with
  | nil => intro p ys; simp [chainB, spansEnd]
  | cons s rest ih =>
    intro p ys
    rcases s with ⟨q, k⟩
    simp only [List.cons_append, chainB, List.append_eq]
    rw [ih (p + k) ys]
    have hs : spansEnd p ((q, k) :: rest) = spansEnd (p + k) rest := by simp [spansEnd]
    rw [hs, Bool.and_assoc]

theorem traceSpans_append_one (tr : List RoundT) (r : RoundT) :
    traceSpans (tr ++ [r]) = traceSpans tr ++ pairsSpans r.pairs := by
  simp [traceSpans]

/-- `applyPairs` applies pairs at consecutive positions: its pair trace is
chained from the starting position and the final cursor is where the spans
end. -/
theorem applyPairs_spec (pairs : List (Option (Nat × Tok) × Nat)) :
    ∀ (r : Res) (pos : Nat),
      chainB pos (pairsSpans (applyPairs r pos pairs).2.2) = true ∧
      (applyPairs r pos pairs).2.1 = spansEnd pos (pairsSpans (applyPairs r pos pairs).2.2) := by
  induction pairs with
  | nil => intro r pos; simp [applyPairs, pairsSpans, chainB, spansEnd]
  | cons pr rest ih =>
    intro r pos
    rcases pr with ⟨ot, k⟩
    have hrec := ih (match ot with
      | none => r
      | some (id, t) => addToken r id t pos) (pos + k)
    simp only [applyPairs, pairsSpans, List.map_cons, chainB, spansEnd, List.foldl_cons]
    refine ⟨?_, ?_⟩
    · simp only [beq_self_eq_true, Bool.true_and]
      exact hrec.1
    · exact hrec.2

/-- Loop invariant: the accumulated trace is chained from 0 and its end is the
current cursor; both survive every round and hold at loop exit. -/
theorem tokLoop_chain (fuel : Nat) :
    ∀ (ps : List Proc) (c : Str) (pos nid : Nat) (r : Res) (tr : List RoundT)
      (ps2 : List Proc) (pos2 nid2 : Nat) (r2 : Res) (tr2 : List RoundT),
      tokLoop fuel ps c pos nid r tr = some (Except.ok (ps2, pos2, nid2, r2, tr2)) →
      chainB 0 (traceSpans tr) = true →
      spansEnd 0 (traceSpans tr) = pos →
      chainB 0 (traceSpans tr2) = true ∧ spansEnd 0 (traceSpans tr2) = pos2 := by
  induction fuel with
  | zero =>
    intro ps c pos nid r tr ps2 pos2 nid2 r2 tr2 h
    simp [tokLoop] at h
  | succ f ih =>
    intro ps c pos nid r tr ps2 pos2 nid2 r2 tr2 h hch hend
    rw [tokLoop] at h
    cases htr : tryRound ps c pos nid with
    | error e => rw [htr] at h; simp at h
    | ok o =>
      rw [htr] at h
      cases o with
      | none =>
        simp only [Option.some.injEq, Except.ok.injEq, Prod.mk.injEq] at h
        obtain ⟨-, h2, -, -, h5⟩ := h
        rw [← h5, ← h2]
        exact ⟨hch, hend⟩
      | some m =>
        rcases m with ⟨ps3, nid3, pairs⟩
        simp only at h
        have hap := applyPairs_spec pairs r pos
        refine ih ps3 c (applyPairs r pos pairs).2.1 nid3 (applyPairs r pos pairs).1
          (tr ++ [⟨pos, (applyPairs r pos pairs).2.2⟩]) ps2 pos2 nid2 r2 tr2 h ?_ ?_
        · rw [traceSpans_append_one, chainB_append, hch, hend]
          simpa using hap.1
        · rw [traceSpans_append_one, spansEnd_append, hend]
          exact hap.2.symm

/-- With a chained span list, indices below the start are covered by no span. -/
theorem chain_cover_zero (l : List (Nat × Nat)) :
    ∀ (p : Nat), chainB p l = true → ∀ i < p, l.countP (coversB i) = 0 := by
  induction l with
  | nil => intro p _ i _; simp
  | cons s rest ih =>
    intro p hch i hi
    rcases s with ⟨q, k⟩
    simp only [chainB, Bool.and_eq_true, beq_iff_eq] at hch
    rw [List.countP_cons]
    have h0 : coversB i (q, k) = false := by
      simp only [coversB, decide_eq_false_iff_not]
      omega
    rw [h0]
    have := ih (p + k) hch.2 i (by omega)
    simpa using this

/-- With a chained span list, every index between the start and the end is
covered by exactly one span. -/
theorem chain_cover_one (l : List (Nat × Nat)) :
    ∀ (p : Nat), chainB p l = true →
      ∀ i, p ≤ i → i < spansEnd p l → l.countP (coversB i) = 1 := by
  induction l with
  | nil =>
    intro p _ i h1 h2
    simp [spansEnd] at h2
    omega
  | cons s rest ih =>
    intro p hch i h1 h2
    rcases s with ⟨q, k⟩
    simp only [chainB, Bool.and_eq_true, beq_iff_eq] at hch
    have hs : spansEnd p ((q, k) :: rest) = spansEnd (p + k) rest := by simp [spansEnd]
    rw [hs] at h2
    by_cases hcov : i < p + k
    · have h0 : coversB i (q, k) = true := by
        simp only [coversB, decide_eq_true_eq]
        omega
      have hz := chain_cover_zero rest (p + k) hch.2 i hcov
      simp [List.countP_cons, h0, hz]
    · have h0 : coversB i (q, k) = false := by
        simp only [coversB, decide_eq_false_iff_not]
        omega
      have hone := ih (p + k) hch.2 i (by omega) h2
      simp [List.countP_cons, h0, hone]

/-- C1: if `tokenize` returns successfully, the consumed spans applied across
all matched steps partition the input exactly — they are contiguous from
offset 0, their total consumed length is the input length, and every input
index is covered by exactly one span (no overlap, no gap). -/
theorem C1_coverage (fuel : Nat) (ps : List Proc) (c : Str) (out : FinalOut)
    (h : tokenizeF fuel ps c = some (Except.ok out)) :
    chainB 0 (traceSpans out.trace) = true ∧
    spansEnd 0 (traceSpans out.trace) = c.length ∧
    ∀ i < c.length, (traceSpans out.trace).countP (coversB i) = 1 := by
  cases hloop : tokLoop fuel ps c 0 0 emptyRes [] with
  | none => simp [tokenizeF, hloop] at h
  | some x =>
    cases x with
    | error e => simp [tokenizeF, hloop] at h
    | ok st =>
      rcases st with ⟨ps2, pos, nid, r, tr⟩
      simp only [tokenizeF, hloop] at h
      by_cases hpos : pos ≠ c.length
      · rw [if_pos hpos] at h; simp at h
      · rw [if_neg hpos] at h
        simp only [Option.some.injEq, Except.ok.injEq] at h
        have hpos2 : pos = c.length := by omega
        have hmain := tokLoop_chain fuel ps c 0 0 emptyRes [] ps2 pos nid r tr hloop
          (by rfl) (by rfl)
        have htr : out.trace = tr := by rw [← h]
        rw [htr, ← hpos2]
        exact ⟨hmain.1, hmain.2, fun i hi =>
          chain_cover_one (traceSpans tr) 0 hmain.1 i (Nat.zero_le i) (by omega)⟩

/-- Witness for C1 on the concrete run of `"a\n\tb\nc"`: the spans are chained
from 0 and end at the input length 6. -/
theorem C1_coverage_witness :
    chainB 0 (traceSpans (traceOf (tokenizeF 20 procsA srcDedent0))) = true ∧
    spansEnd 0 (traceSpans (traceOf (tokenizeF 20 procsA srcDedent0))) = srcDedent0.length := by
  obtain ⟨out, hout⟩ := runOk_eq (o := tokenizeF 20 procsA srcDedent0) (by decide)
  have h := C1_coverage 20 procsA srcDedent0 out hout
  rw [hout]
  simp only [traceOf]
  exact ⟨h.1, h.2.1⟩

/-! ## C3 amended: where tokens of a multi-pair step are recorded -/

/-- Replay the recordings of one round from its pair trace: each emitted token
is added at the `appliedAt` cursor value of its own pair. -/
def applyTraceRes (r : Res) (ps : List PairT) : Res :=
  ps.foldl
    (fun acc e => match e.tok with
      | none => acc
      | some (id, t) => addToken acc id t e.appliedAt) r

/-- Replay all rounds of a run. -/
def applyRounds (r : Res) (tr : List RoundT) : Res :=
  tr.foldl (fun acc rd => applyTraceRes acc rd.pairs) r

/-- Replay the finalizer-phase recordings. -/
def applyFinal (r : Res) (ft : List (Nat × Tok × Nat)) : Res :=
  ft.foldl (fun acc it => addToken acc it.1 it.2.1 it.2.2) r

theorem applyPairs_res (pairs : List (Option (Nat × Tok) × Nat)) :
    ∀ (r : Res) (pos : Nat),
      (applyPairs r pos pairs).1 = applyTraceRes r (applyPairs r pos pairs).2.2 := by
  induction pairs with
  | nil => intro r pos; rfl
  | cons pr rest ih =>
    intro r pos
    rcases pr with ⟨ot, k⟩
    cases ot with
    | none => simpa [applyPairs, applyTraceRes] using ih r (pos + k)
    | some it =>
      rcases it with ⟨id, t⟩
      simpa [applyPairs, applyTraceRes] using ih (addToken r id t pos) (pos + k)

theorem applyRounds_append_one (r : Res) (tr : List RoundT) (rd : RoundT) :
    applyRounds r (tr ++ [rd]) = applyTraceRes (applyRounds r tr) rd.pairs := by
  simp [applyRounds, List.foldl_append]

/-- Loop invariant: the accumulated result is exactly the replay of the
accumulated trace, and every recorded round's pairs are chained from the
round's starting cursor. -/
theorem tokLoop_res (fuel : Nat) :
    ∀ (ps : List Proc) (c : Str) (pos nid : Nat) (r : Res) (tr : List RoundT)
      (ps2 : List Proc) (pos2 nid2 : Nat) (r2 : Res) (tr2 : List RoundT),
      tokLoop fuel ps c pos nid r tr = some (Except.ok (ps2, pos2, nid2, r2, tr2)) →
      r = applyRounds emptyRes tr →
      (∀ rd ∈ tr, chainB rd.startPos (pairsSpans rd.pairs) = true) →
      r2 = applyRounds emptyRes tr2 ∧
        (∀ rd ∈ tr2, chainB rd.startPos (pairsSpans rd.pairs) = true) := by
  induction fuel with
  | zero =>
    intro ps c pos nid r tr ps2 pos2 nid2 r2 tr2 h
    simp [tokLoop] at h
  | succ f ih =>
    intro ps c pos nid r tr ps2 pos2 nid2 r2 tr2 h hres hch
    rw [tokLoop] at h
    cases htr : tryRound ps c pos nid with
    | error e => rw [htr] at h; simp at h
    | ok o =>
      rw [htr] at h
      cases o with
      | none =>
        simp only [Option.some.injEq, Except.ok.injEq, Prod.mk.injEq] at h
        obtain ⟨-, -, -, h4, h5⟩ := h
        rw [← h5, ← h4]
        exact ⟨hres, hch⟩
      | some m =>
        rcases m with ⟨ps3, nid3, pairs⟩
        simp only at h
        refine ih ps3 c (applyPairs r pos pairs).2.1 nid3 (applyPairs r pos pairs).1
          (tr ++ [⟨pos, (applyPairs r pos pairs).2.2⟩]) ps2 pos2 nid2 r2 tr2 h ?_ ?_
        · rw [applyRounds_append_one, ← hres]
          exact applyPairs_res pairs r pos
        · intro rd hrd
          rcases List.mem_append.mp hrd with hin | hin
          · exact hch rd hin
          · simp only [List.mem_singleton] at hin
            rw [hin]
            exact (applyPairs_spec pairs r pos).1

theorem runFinalizers_res (ps : List Proc) :
    ∀ (len nid : Nat) (r : Res),
      (runFinalizers ps len nid r).1
        = applyFinal r (runFinalizers ps len nid r).2.2 := by
  induction ps with
  | nil => intro len nid r; rfl
  | cons p rest ih =>
    intro len nid r
    have hmap : ∀ (l : List (Nat × Tok)) (r0 : Res),
        applyFinal r0 (l.map (fun it => (it.1, it.2, len)))
          = l.foldl (fun acc it => addToken acc it.1 it.2 len) r0 := by
      intro l
      induction l with
      | nil => intro r0; rfl
      | cons it rest2 ih2 => intro r0; simpa [applyFinal] using ih2 _
    simp only [runFinalizers, applyFinal, List.foldl_append]
    rw [← applyFinal, ← applyFinal, ih, hmap]

/-- C3 amended: within a single matched step the driving loop alternates
recording and advancing — each non-absent token is recorded at the cursor
value its own pair is applied at, namely the round's starting `pos` plus the
consumed lengths of the preceding pairs of that step (so the recorded offset
*is* advanced between sub-token emissions whenever earlier pairs of the step
consumed a positive length).  Formally: each round's pair trace is chained
from the round's start, and the final result is exactly the replay that adds
every emitted token at its pair's `appliedAt` (finalizer tokens and the
end-of-file token at their recorded offsets). -/
theorem C3_amended (fuel : Nat) (ps : List Proc) (c : Str) (out : FinalOut)
    (h : tokenizeF fuel ps c = some (Except.ok out)) :
    (∀ rd ∈ out.trace, chainB rd.startPos (pairsSpans rd.pairs) = true) ∧
    out.res = applyFinal (applyRounds emptyRes out.trace) out.ftrace := by
  cases hloop : tokLoop fuel ps c 0 0 emptyRes [] with
  | none => simp [tokenizeF, hloop] at h
  | some x =>
    cases x with
    | error e => simp [tokenizeF, hloop] at h
    | ok st =>
      rcases st with ⟨ps2, pos, nid, r, tr⟩
      simp only [tokenizeF, hloop] at h
      by_cases hpos : pos ≠ c.length
      · rw [if_pos hpos] at h; simp at h
      · rw [if_neg hpos] at h
        simp only [Option.some.injEq, Except.ok.injEq] at h
        have hmain := tokLoop_res fuel ps c 0 0 emptyRes [] ps2 pos nid r tr hloop
          rfl (by intro rd hrd; simp at hrd)
        have htr : out.trace = tr := by rw [← h]
        have hres : out.res
            = addToken (runFinalizers ps2 c.length nid r).1
                (runFinalizers ps2 c.length nid r).2.1 Tok.endOfFile c.length := by
          rw [← h]
        have hft : out.ftrace
            = (runFinalizers ps2 c.length nid r).2.2
                ++ [((runFinalizers ps2 c.length nid r).2.1, Tok.endOfFile, c.length)] := by
          rw [← h]
        refine ⟨by rw [htr]; exact hmain.2, ?_⟩
        rw [hres, hft, htr, ← hmain.1]
        have hsplit : applyFinal r ((runFinalizers ps2 c.length nid r).2.2
            ++ [((runFinalizers ps2 c.length nid r).2.1, Tok.endOfFile, c.length)])
            = addToken (applyFinal r (runFinalizers ps2 c.length nid r).2.2)
                (runFinalizers ps2 c.length nid r).2.1 Tok.endOfFile c.length := by
          simp [applyFinal, List.foldl_append]
        rw [hsplit, ← runFinalizers_res]

/-- Witness for C3 amended on the concrete run of `"a\n b\n  c\n   d\n e\nf"`
(where a two-pair dedent step records its two tokens one position apart). -/
theorem C3_amended_witness :
    (∀ rd ∈ traceOf (tokenizeF 30 procsA srcDeepDedent),
      chainB rd.startPos (pairsSpans rd.pairs) = true) ∧
    resOf (tokenizeF 30 procsA srcDeepDedent)
      = applyFinal (applyRounds emptyRes (traceOf (tokenizeF 30 procsA srcDeepDedent)))
          (ftraceOf (tokenizeF 30 procsA srcDeepDedent)) := by
  obtain ⟨out, hout⟩ := runOk_eq (o := tokenizeF 30 procsA srcDeepDedent) (by decide)
  have h := C3_amended 30 procsA srcDeepDedent out hout
  rw [hout]
  simp only [traceOf, resOf, ftraceOf]
  exact h

/-! ## C5 amended: what the indent counts actually satisfy -/

def isStartPair (p : Option (Nat × Tok) × Nat) : Bool :=
  match p.1 with
  | some (_, Tok.scopeStart) => true
  | _ => false

def isEndPair (p : Option (Nat × Tok) × Nat) : Bool :=
  match p.1 with
  | some (_, Tok.scopeEnd) => true
  | _ => false

/-- Scope-start pairs emitted across a list of process results. -/
def countStarts (ps : List (Option (Nat × Tok) × Nat)) : Nat := ps.countP isStartPair

/-- Scope-end pairs emitted across a list of process results. -/
def countEnds (ps : List (Option (Nat × Tok) × Nat)) : Nat := ps.countP isEndPair

/-- A maximal sequence of `process` calls on one indent processor, state
threaded through, collecting every emitted pair — the processor's run as the
driving loop performs it. -/
def indentRun (st : IndentState) (nid : Nat) :
    List (Str × Nat) → Except Str (List (Option (Nat × Tok) × Nat) × IndentState × Nat)
  | [] => .ok ([], st, nid)
  | (c, off) :: rest =>
    match indentProcess st c off nid with
    | .error e => .error e
    | .ok (pairs, st2, nid2) =>
      match indentRun st2 nid2 rest with
      | .error e => .error e
      | .ok (pairss, st3, nid3) => .ok (pairs ++ pairss, st3, nid3)

theorem countP_replicate (p : (Option (Nat × Tok) × Nat) → Bool) (k : Nat)
    (a : Option (Nat × Tok) × Nat) :
    (List.replicate k a).countP p = if p a then k else 0 := by
  induction k with
  | zero => simp
  | succ n ih =>
    rw [List.replicate_succ, List.countP_cons, ih]
    by_cases hp : p a = true
    · simp [hp]
    · simp [hp]

/-- The state invariant of one indent processor run (mixing not tolerated):
the depth is the divider times the signed start/end balance of the pairs
emitted so far, an unset unit means nothing has been emitted, and a set unit
means the divider is positive. -/
def IndentInv (st : IndentState) (s e : Nat) : Prop :=
  (st.level : Int) = st.divider * ((s : Int) - e) ∧
  (st.mode = none → st.divider = 0 ∧ s = e ∧ st.level = 0) ∧
  (st.mode ≠ none → 1 ≤ st.divider)

theorem indentCore_inv
    (st : IndentState) (nl nid : Nat)
    (pairs : List (Option (Nat × Tok) × Nat)) (st2 : IndentState) (nid2 : Nat)
    (hmix : st.allowMixed = false)
    (h : indentCore st nl nid = .ok (pairs, st2, nid2))
    (s e : Nat)
    (hlev : (st.level : Int) = st.divider * ((s : Int) - e))
    (hdiv : nl ≠ st.level → 1 ≤ st.divider) :
    st2.allowMixed = false ∧ st2.mode = st.mode ∧ st2.divider = st.divider ∧
    (st2.level : Int)
      = st2.divider * ((((s + countStarts pairs) : Nat) : Int) - ((e + countEnds pairs) : Nat)) ∧
    (st.level = 0 ∧ nl = 0 →
      st2.level = 0 ∧ countStarts pairs = 0 ∧ countEnds pairs = 0) := by
  simp only [indentCore] at h
  by_cases h1 : nl = st.level
  · rw [if_neg (fun hh => hh h1)] at h
    by_cases h4 : nl ≠ 0
    · rw [if_pos h4, hmix] at h
      simp only [Bool.false_eq_true, if_false, Except.ok.injEq, Prod.mk.injEq] at h
      obtain ⟨hp, hst, -⟩ := h
      subst hst
      rw [← hp]
      refine ⟨hmix, rfl, rfl, ?_, ?_⟩
      · simpa [countStarts, countEnds, isStartPair, isEndPair] using hlev
      · intro hz
        exact absurd hz.2 h4
    · rw [if_neg h4] at h
      simp only [Except.ok.injEq, Prod.mk.injEq] at h
      obtain ⟨hp, hst, -⟩ := h
      subst hst
      rw [← hp]
      refine ⟨hmix, rfl, rfl, ?_, ?_⟩
      · simpa [countStarts, countEnds] using hlev
      · intro _
        simp only [not_not] at h4
        exact ⟨h1 ▸ h4, by simp [countStarts], by simp [countEnds]⟩
  · rw [if_pos h1] at h
    have hd : 1 ≤ st.divider := hdiv h1
    rw [if_neg (by omega)] at h
    by_cases h3 : (if st.level ≥ nl then st.level - nl else nl - st.level) % st.divider ≠ 0
    · rw [if_pos h3] at h
      simp at h
    · rw [if_neg h3] at h
      simp only [not_not] at h3
      simp only [Except.ok.injEq, Prod.mk.injEq] at h
      obtain ⟨hp, hst, -⟩ := h
      subst hst
      by_cases hge : st.level ≥ nl
      · rw [if_pos hge] at h3 hp
        have hgt : ¬ nl > st.level := by omega
        rw [if_neg hgt] at hp
        have hdk : st.divider * ((st.level - nl) / st.divider) = st.level - nl :=
          Nat.mul_div_cancel' (Nat.dvd_of_mod_eq_zero h3)
        rw [← hp]
        refine ⟨hmix, rfl, rfl, ?_, ?_⟩
        · simp only [countStarts, countEnds, countP_replicate, isStartPair, isEndPair]
          have hc1 : ((st.level - nl : Nat) : Int) = (st.level : Int) - nl := by
            omega
          push_cast
          have hdki : (st.divider : Int) * (((st.level - nl) / st.divider : Nat) : Int)
              = (st.level : Int) - nl := by
            rw [← hc1]
            exact_mod_cast hdk
          nlinarith [hlev, hdki]
        · intro hz
          omega
      · rw [if_neg hge] at h3 hp
        have hgt : nl > st.level := by omega
        rw [if_pos hgt] at hp
        have hdk : st.divider * ((nl - st.level) / st.divider) = nl - st.level :=
          Nat.mul_div_cancel' (Nat.dvd_of_mod_eq_zero h3)
        rw [← hp]
        refine ⟨hmix, rfl, rfl, ?_, ?_⟩
        · simp only [countStarts, countEnds, countP_replicate, isStartPair, isEndPair]
          have hc1 : ((nl - st.level : Nat) : Int) = (nl : Int) - st.level := by
            omega
          push_cast
          have hdki : (st.divider : Int) * (((nl - st.level) / st.divider : Nat) : Int)
              = (nl : Int) - st.level := by
            rw [← hc1]
            exact_mod_cast hdk
          nlinarith [hlev, hdki]
        · intro hz
          omega

theorem takeWhile_pos (c : Str) (p : Nat) (c1 : Char) (pr : Char → Bool)
    (h : c.get? p = some c1) (hp : pr c1 = true) :
    1 ≤ ((c.drop p).takeWhile pr).length := by
  obtain ⟨hlt, hget⟩ := List.get?_eq_some.mp h
  rw [List.drop_eq_getElem_cons hlt, List.takeWhile_cons]
  rw [List.get_eq_getElem] at hget
  rw [hget, hp]
  simp

/-- A whitespace alternative of the indent regex (`lastindex` 1 or 2) always
ends at least one character past the anchor offset: `newLevel ≥ 1`. -/
theorem indentMatch_nl_pos (c : Str) (off li e0 : Nat)
    (h : indentMatch c (off - 1) = some (li, e0)) (h3 : li ≠ 3) :
    off + 1 ≤ e0 := by
  cases hg : c.get? (off - 1) with
  | none => simp only [indentMatch, hg] at h; exact absurd h (by simp)
  | some ch =>
    simp only [indentMatch, hg] at h
    by_cases hnl : ch = '\n'
    · rw [if_pos hnl] at h
      cases hg1 : c.get? (off - 1 + 1) with
      | none => simp only [hg1] at h; exact absurd h (by simp)
      | some c1 =>
        simp only [hg1] at h
        by_cases ht : c1 = '\t'
        · rw [if_pos ht] at h
          simp only [Option.some.injEq, Prod.mk.injEq] at h
          have hrun := takeWhile_pos c (off - 1 + 1) c1 (fun x => x = '\t') hg1 (by simp [ht])
          omega
        · rw [if_neg ht] at h
          by_cases hs : c1 = ' '
          · rw [if_pos hs] at h
            simp only [Option.some.injEq, Prod.mk.injEq] at h
            have hrun := takeWhile_pos c (off - 1 + 1) c1 (fun x => x = ' ') hg1 (by simp [hs])
            omega
          · rw [if_neg hs] at h
            simp only [Option.some.injEq, Prod.mk.injEq] at h
            exact absurd h.1.symm h3
    · rw [if_neg hnl] at h; simp at h

/-- One successful `process` call preserves the indent invariant (mixing not
tolerated), accounting for the scope tokens it emits. -/
theorem indentProcess_inv
    (st : IndentState) (c : Str) (off nid : Nat)
    (pairs : List (Option (Nat × Tok) × Nat)) (st2 : IndentState) (nid2 : Nat)
    (hmix : st.allowMixed = false)
    (h : indentProcess st c off nid = .ok (pairs, st2, nid2))
    (s e : Nat) (hinv : IndentInv st s e) :
    st2.allowMixed = false ∧ IndentInv st2 (s + countStarts pairs) (e + countEnds pairs) := by
  cases hm : indentMatch c (off - 1) with
  | none =>
    rw [indentProcess, hm] at h
    simp only [Except.ok.injEq, Prod.mk.injEq] at h
    obtain ⟨hp, hst, -⟩ := h
    subst hst
    rw [← hp]
    simpa [countStarts, countEnds] using ⟨hmix, hinv⟩
  | some r =>
    rcases r with ⟨li, e0⟩
    by_cases h3 : li = 3
    · have h5 : indentProcess st c off nid = indentCore st 0 nid := by
        simp [indentProcess, hm, h3]
      rw [h5] at h
      have hdiv : (0 : Nat) ≠ st.level → 1 ≤ st.divider := by
        intro hne
        refine hinv.2.2 (fun hnone => ?_)
        exact hne (hinv.2.1 hnone).2.2.symm
      have hcore := indentCore_inv st 0 nid pairs st2 nid2 hmix h s e hinv.1 hdiv
      refine ⟨hcore.1, hcore.2.2.2.1, ?_, ?_⟩
      · intro hnone
        rw [hcore.2.1] at hnone
        obtain ⟨hd0, hse, hl0⟩ := hinv.2.1 hnone
        obtain ⟨hl2, hcs, hce⟩ := hcore.2.2.2.2 ⟨hl0, rfl⟩
        rw [hcore.2.2.1, hcs, hce]
        exact ⟨hd0, by omega, hl2⟩
      · intro hnone
        rw [hcore.2.1] at hnone
        rw [hcore.2.2.1]
        exact hinv.2.2 hnone
    · by_cases hmode : st.mode = none
      · have h5 : indentProcess st c off nid
            = indentCore { st with mode := some li, divider := e0 - off } (e0 - off) nid := by
          simp [indentProcess, hm, h3, hmode]
        rw [h5] at h
        obtain ⟨hd0, hse, hl0⟩ := hinv.2.1 hmode
        have hpos : 1 ≤ e0 - off := by
          have := indentMatch_nl_pos c off li e0 hm h3
          omega
        have hlev2 : (IndentState.level { st with mode := some li, divider := e0 - off } : Int)
            = (IndentState.divider { st with mode := some li, divider := e0 - off })
                * ((s : Int) - e) := by
          simp only [hl0, hse]
          ring
        have hcore := indentCore_inv { st with mode := some li, divider := e0 - off }
          (e0 - off) nid pairs st2 nid2 hmix h s e hlev2 (fun _ => hpos)
        refine ⟨hcore.1, hcore.2.2.2.1, ?_, ?_⟩
        · intro hnone
          rw [hcore.2.1] at hnone
          simp at hnone
        · intro _
          rw [hcore.2.2.1]
          exact hpos
      · by_cases heq : st.mode = some li
        · have h5 : indentProcess st c off nid = indentCore st (e0 - off) nid := by
            simp [indentProcess, hm, h3, heq]
          rw [h5] at h
          have hcore := indentCore_inv st (e0 - off) nid pairs st2 nid2 hmix h s e hinv.1
            (fun _ => hinv.2.2 (by rw [heq]; simp))
          refine ⟨hcore.1, hcore.2.2.2.1, ?_, ?_⟩
          · intro hnone
            rw [hcore.2.1, heq] at hnone
            simp at hnone
          · intro _
            rw [hcore.2.2.1]
            exact hinv.2.2 (by rw [heq]; simp)
        · have h5 : indentProcess st c off nid = .error mixedIndentMsg := by
            simp [indentProcess, hm, h3, hmode, heq]
          rw [h5] at h
          exact absurd h (by simp)

/-- The invariant holds across any successful run of `process` calls. -/
theorem indentRun_inv (calls : List (Str × Nat)) :
    ∀ (st : IndentState) (nid : Nat)
      (pairs : List (Option (Nat × Tok) × Nat)) (st2 : IndentState) (nid2 : Nat),
      st.allowMixed = false →
      indentRun st nid calls = .ok (pairs, st2, nid2) →
      ∀ (s e : Nat), IndentInv st s e →
        st2.allowMixed = false ∧
          IndentInv st2 (s + countStarts pairs) (e + countEnds pairs) := by
  induction calls with
  | nil =>
    intro st nid pairs st2 nid2 hmix h s e hinv
    simp only [indentRun, Except.ok.injEq, Prod.mk.injEq] at h
    obtain ⟨hp, hst, -⟩ := h
    subst hst
    rw [← hp]
    simpa [countStarts, countEnds] using ⟨hmix, hinv⟩
  | cons call rest ih =>
    intro st nid pairs st2 nid2 hmix h s e hinv
    rcases call with ⟨c, off⟩
    rw [indentRun] at h
    cases hp1 : indentProcess st c off nid with
    | error e2 => simp only [hp1] at h; exact absurd h (by simp)
    | ok out1 =>
      rcases out1 with ⟨pairs1, stm, nidm⟩
      simp only [hp1] at h
      cases hp2 : indentRun stm nidm rest with
      | error e2 => simp only [hp2] at h; exact absurd h (by simp)
      | ok out2 =>
        rcases out2 with ⟨pairs2, stf, nidf⟩
        simp only [hp2] at h
        simp only [Except.ok.injEq, Prod.mk.injEq] at h
        obtain ⟨hp, hst, -⟩ := h
        subst hst
        have hstep := indentProcess_inv st c off nid pairs1 stm nidm hmix hp1 s e hinv
        have hrest := ih stm nidm pairs2 stf nidf hstep.1 hp2
          (s + countStarts pairs1) (e + countEnds pairs1) hstep.2
        rw [← hp]
        have hcs : countStarts (pairs1 ++ pairs2) = countStarts pairs1 + countStarts pairs2 := by
          simp [countStarts, List.countP_append]
        have hce : countEnds (pairs1 ++ pairs2) = countEnds pairs1 + countEnds pairs2 := by
          simp [countEnds, List.countP_append]
        rw [hcs, hce]
        refine ⟨hrest.1, ?_⟩
        rw [← Nat.add_assoc, ← Nat.add_assoc]
        exact hrest.2

/-- C5 amended: for a run of the indent processor that tolerates no mixing and
completes without error, the depth always equals the established indent width
times the difference between scope-starts and scope-ends emitted by `process`;
the finalizer then emits exactly depth-many scope-end tokens (one per
*character* of depth, not per scope).  Consequently the start count equals the
total end count (process plus finalizer) precisely when the final depth is 0
or the established width is 1 — not in general, as the counterexample shows. -/
theorem C5_amended (calls : List (Str × Nat))
    (pairs : List (Option (Nat × Tok) × Nat)) (st2 : IndentState) (nid2 : Nat)
    (h : indentRun (initIndent false) 0 calls = .ok (pairs, st2, nid2)) :
    (st2.level : Int) = st2.divider * ((countStarts pairs : Int) - countEnds pairs) ∧
    (∀ n, ((Proc.indent st2).finalize n).1.length = st2.level ∧
      ∀ it ∈ ((Proc.indent st2).finalize n).1, it.2 = Tok.scopeEnd) ∧
    (countStarts pairs = countEnds pairs + st2.level ↔
      st2.level = 0 ∨ st2.divider = 1) := by
  have hinv0 : IndentInv (initIndent false) 0 0 := by
    refine ⟨by simp [initIndent], fun _ => by simp [initIndent], fun hnone => ?_⟩
    simp [initIndent] at hnone
  have hrun := indentRun_inv calls (initIndent false) 0 pairs st2 nid2 rfl h 0 0 hinv0
  have hlev : (st2.level : Int)
      = st2.divider * ((countStarts pairs : Int) - countEnds pairs) := by
    have := hrun.2.1
    simpa using this
  refine ⟨hlev, ?_, ?_⟩
  · intro n
    constructor
    · simp [Proc.finalize]
    · intro it hit
      simp only [Proc.finalize, List.mem_map] at hit
      obtain ⟨i, -, hi⟩ := hit
      rw [← hi]
  · constructor
    · intro hbal
      have hcast : ((countStarts pairs : Int) - countEnds pairs) = st2.level := by
        omega
      rw [hcast] at hlev
      by_cases hl0 : st2.level = 0
      · exact Or.inl hl0
      · right
        have : ((st2.divider : Int) - 1) * st2.level = 0 := by linarith
        rcases mul_eq_zero.mp this with hd | hl
        · omega
        · exact absurd (by exact_mod_cast hl) hl0
    · intro hcase
      rcases hcase with hl0 | hd1
      · rw [hl0] at hlev ⊢
        have : ((countStarts pairs : Int) - countEnds pairs) = 0 ∨ (st2.divider : Int) = 0 := by
          rcases mul_eq_zero.mp hlev.symm with hd | hs
          · exact Or.inr hd
          · exact Or.inl hs
        rcases this with hs | hd
        · omega
        · -- divider 0: the invariant forces starts = ends
          have hmode := hrun.2.2
          by_cases hnone : st2.mode = none
          · have := hmode.1 hnone
            omega
          · have := hmode.2 hnone
            omega
      · rw [hd1] at hlev
        simp at hlev
        omega

/-- Witness for C5 amended on the single call that tokenizing `"a\n  b"`
makes: one scope-start pair, final depth 2 with width 2, and the balance
equivalence is `false ↔ false`. -/
theorem C5_amended_witness :
    ((⟨false, 2, some 2, 2⟩ : IndentState).level : Int)
        = (⟨false, 2, some 2, 2⟩ : IndentState).divider
            * ((countStarts [(some (0, Tok.scopeStart), 2)] : Int)
                - countEnds [(some (0, Tok.scopeStart), 2)]) ∧
    (∀ n, ((Proc.indent ⟨false, 2, some 2, 2⟩).finalize n).1.length = 2) ∧
    ¬ (countStarts [(some (0, Tok.scopeStart), 2)]
        = countEnds [(some (0, Tok.scopeStart), 2)]
            + (⟨false, 2, some 2, 2⟩ : IndentState).level) := by
  have h := C5_amended [(srcOpenIndent, 2)] [(some (0, Tok.scopeStart), 2)]
    ⟨false, 2, some 2, 2⟩ 1 (by rfl)
  refine ⟨h.1, fun n => (h.2.1 n).1, ?_⟩
  intro hbal
  have := (h.2.2).mp hbal
  rcases this with h0 | h1
  · exact absurd h0 (by decide)
  · exact absurd h1 (by decide)

/-! ## C9 amended: the error taxonomy of `tokenize` -/

/-- Well-formedness of an indent state, true of every constructed processor
and preserved by `process`: a locked unit has a positive divider, and a zero
divider means nothing has been indented yet. -/
def IndentWF (st : IndentState) : Prop :=
  (st.mode ≠ none → 1 ≤ st.divider) ∧ (st.divider = 0 → st.level = 0)

def ProcWF : Proc → Prop
  | .matcher _ => True
  | .indent st => IndentWF st

/-- `indentCore`'s division-by-zero can fire only on a level change with a
zero divider. -/
theorem indentCore_error_shape (st : IndentState) (nl nid : Nat) {e : Str}
    (h : indentCore st nl nid = .error e) :
    (e = zeroDivMsg ∧ nl ≠ st.level ∧ st.divider = 0) ∨ e = invalidIndentMsg st.divider := by
  simp only [indentCore] at h
  split_ifs at h
  all_goals
    first
      | exact Or.inl ⟨(Except.error.inj h).symm, by assumption, by assumption⟩
      | exact Or.inr (Except.error.inj h).symm

/-- The shape of `indentCore`'s successful results, as needed to carry
well-formedness through a run. -/
theorem indentCore_ok_shape (st : IndentState) (nl nid : Nat)
    (pairs : List (Option (Nat × Tok) × Nat)) (st2 : IndentState) (nid2 : Nat)
    (h : indentCore st nl nid = .ok (pairs, st2, nid2)) :
    st2.divider = st.divider ∧ (st2.level = nl ∨ st2.level = st.level) ∧
    (st2.mode = st.mode ∨ st2.mode = none) ∧
    (st2.level ≠ st.level → st.divider ≠ 0) := by
  simp only [indentCore] at h
  split_ifs at h
  all_goals
    simp only [Except.ok.injEq, Prod.mk.injEq] at h
  all_goals
    obtain ⟨-, hst, -⟩ := h
  all_goals
    rw [← hst]
  all_goals
    first
      | exact ⟨by simp, Or.inl (by simp), Or.inl (by simp), fun _ => by assumption⟩
      | exact ⟨by simp, Or.inr (by simp), Or.inr (by simp), fun hh => absurd (by simp) hh⟩
      | exact ⟨by simp, Or.inr (by simp), Or.inl (by simp), fun hh => absurd (by simp) hh⟩

/-- A successful `process` call preserves well-formedness. -/
theorem indentProcess_wf (st : IndentState) (c : Str) (off nid : Nat)
    (pairs : List (Option (Nat × Tok) × Nat)) (st2 : IndentState) (nid2 : Nat)
    (hwf : IndentWF st)
    (h : indentProcess st c off nid = .ok (pairs, st2, nid2)) :
    IndentWF st2 := by
  cases hm : indentMatch c (off - 1) with
  | none =>
    simp only [indentProcess, hm, Except.ok.injEq, Prod.mk.injEq] at h
    obtain ⟨-, hst, -⟩ := h
    rw [← hst]
    exact hwf
  | some r =>
    rcases r with ⟨li, e0⟩
    by_cases h3 : li = 3
    · have h5 : indentProcess st c off nid = indentCore st 0 nid := by
        simp [indentProcess, hm, h3]
      rw [h5] at h
      obtain ⟨hdv, hlv, hmo, hch⟩ := indentCore_ok_shape st 0 nid pairs st2 nid2 h
      constructor
      · intro hmode
        rw [hdv]
        rcases hmo with hmo | hmo
        · exact hwf.1 (hmo ▸ hmode)
        · exact absurd hmo hmode
      · intro hd0
        rw [hdv] at hd0
        rcases hlv with hlv | hlv
        · exact hlv
        · rw [hlv]; exact hwf.2 hd0
    · by_cases hmode : st.mode = none
      · have h5 : indentProcess st c off nid
            = indentCore { st with mode := some li, divider := e0 - off } (e0 - off) nid := by
          simp [indentProcess, hm, h3, hmode]
        rw [h5] at h
        obtain ⟨hdv, hlv, hmo, hch⟩ :=
          indentCore_ok_shape { st with mode := some li, divider := e0 - off }
            (e0 - off) nid pairs st2 nid2 h
        have hpos : 1 ≤ e0 - off := by
          have := indentMatch_nl_pos c off li e0 hm h3
          omega
        have hdv2 : st2.divider = e0 - off := by rw [hdv]
        constructor
        · intro _
          rw [hdv2]
          exact hpos
        · intro hd0
          rw [hdv2] at hd0
          omega
      · have heq : st.mode = some li ∨ st.mode ≠ some li := em _
        rcases heq with heq | heq
        · have h5 : indentProcess st c off nid = indentCore st (e0 - off) nid := by
            simp [indentProcess, hm, h3, heq]
          rw [h5] at h
          obtain ⟨hdv, hlv, hmo, hch⟩ := indentCore_ok_shape st (e0 - off) nid pairs st2 nid2 h
          have hd1 : 1 ≤ st.divider := hwf.1 (by rw [heq]; simp)
          constructor
          · intro _
            rw [hdv]
            exact hd1
          · intro hd0
            rw [hdv] at hd0
            omega
        · have h5 : indentProcess st c off nid = .error mixedIndentMsg := by
            simp [indentProcess, hm, h3, hmode, heq]
          rw [h5] at h
          exact absurd h (by simp)

/-- Errors raised by a well-formed `process` call are the mixed-indent error
or an invalid-multiple error; the division-by-zero is unreachable. -/
theorem indentProcess_error_wf (st : IndentState) (c : Str) (off nid : Nat)
    (hwf : IndentWF st) {e : Str}
    (h : indentProcess st c off nid = .error e) :
    e = mixedIndentMsg ∨ ∃ d, e = invalidIndentMsg d := by
  cases hm : indentMatch c (off - 1) with
  | none => simp [indentProcess, hm] at h
  | some r =>
    rcases r with ⟨li, e0⟩
    by_cases h3 : li = 3
    · have h5 : indentProcess st c off nid = indentCore st 0 nid := by
        simp [indentProcess, hm, h3]
      rw [h5] at h
      rcases indentCore_error_shape st 0 nid h with ⟨-, hne, hd0⟩ | hinv
      · exact absurd (hwf.2 hd0).symm hne
      · exact Or.inr ⟨st.divider, hinv⟩
    · by_cases hmode : st.mode = none
      · have h5 : indentProcess st c off nid
            = indentCore { st with mode := some li, divider := e0 - off } (e0 - off) nid := by
          simp [indentProcess, hm, h3, hmode]
        rw [h5] at h
        rcases indentCore_error_shape _ _ nid h with ⟨-, -, hd0⟩ | hinv
        · have hpos : 1 ≤ e0 - off := by
            have := indentMatch_nl_pos c off li e0 hm h3
            omega
          simp at hd0
          omega
        · exact Or.inr ⟨e0 - off, hinv⟩
      · by_cases heq : st.mode = some li
        · have h5 : indentProcess st c off nid = indentCore st (e0 - off) nid := by
            simp [indentProcess, hm, h3, heq]
          rw [h5] at h
          rcases indentCore_error_shape st (e0 - off) nid h with ⟨-, -, hd0⟩ | hinv
          · have hd1 : 1 ≤ st.divider := hwf.1 (by rw [heq]; simp)
            omega
          · exact Or.inr ⟨st.divider, hinv⟩
        · have h5 : indentProcess st c off nid = .error mixedIndentMsg := by
            simp [indentProcess, hm, h3, hmode, heq]
          rw [h5] at h
          exact Or.inl (Except.error.inj h).symm

theorem matcher_process_ok (m : Matcher) (c : Str) (off nid : Nat) (e : Str) :
    Proc.process (.matcher m) c off nid ≠ .error e := by
  intro h
  rw [Proc.process] at h
  cases hm : m.matchAt c off with
  | none => simp only [hm] at h; exact Except.noConfusion h
  | some r =>
    rcases r with ⟨ot, k⟩
    cases ot with
    | none => simp only [hm] at h; exact Except.noConfusion h
    | some t => simp only [hm] at h; exact Except.noConfusion h

theorem matcher_process_shape (m : Matcher) (c : Str) (off nid : Nat)
    (pairs : List (Option (Nat × Tok) × Nat)) (p2 : Proc) (nid2 : Nat)
    (h : Proc.process (.matcher m) c off nid = .ok (pairs, p2, nid2)) :
    p2 = .matcher m := by
  rw [Proc.process] at h
  cases hm : m.matchAt c off with
  | none =>
    simp only [hm, Except.ok.injEq, Prod.mk.injEq] at h
    exact h.2.1.symm
  | some r =>
    rcases r with ⟨ot, k⟩
    cases ot with
    | none =>
      simp only [hm, Except.ok.injEq, Prod.mk.injEq] at h
      exact h.2.1.symm
    | some t =>
      simp only [hm, Except.ok.injEq, Prod.mk.injEq] at h
      exact h.2.1.symm

/-- One scan over the processor list: errors only from well-formed indent
processors, and well-formedness survives. -/
theorem tryRound_shape (ps : List Proc) :
    ∀ (c : Str) (pos nid : Nat),
      (∀ p ∈ ps, ProcWF p) →
      (∀ e, tryRound ps c pos nid = .error e →
        e = mixedIndentMsg ∨ ∃ d, e = invalidIndentMsg d) ∧
      (∀ ps2 nid2 pairs, tryRound ps c pos nid = .ok (some (ps2, nid2, pairs)) →
        ∀ p ∈ ps2, ProcWF p) := by
  induction ps with
  | nil =>
    intro c pos nid hwf
    constructor
    · intro e h
      simp [tryRound] at h
    · intro ps2 nid2 pairs h
      simp [tryRound] at h
  | cons p rest ih =>
    intro c pos nid hwf
    have hwfp : ProcWF p := hwf p (by simp)
    have hwfr : ∀ q ∈ rest, ProcWF q := fun q hq => hwf q (by simp [hq])
    have hrec := ih c pos nid hwfr
    constructor
    · intro e h
      rw [tryRound] at h
      cases hp : p.process c pos nid with
      | error e2 =>
        simp only [hp] at h
        have he2 : e2 = e := Except.error.inj h
        cases p with
        | matcher m => exact absurd hp (matcher_process_ok m c pos nid e2)
        | indent st =>
          rw [Proc.process] at hp
          cases hip : indentProcess st c pos nid with
          | error e3 =>
            simp only [hip] at hp
            rw [← he2, ← Except.error.inj hp]
            exact indentProcess_error_wf st c pos nid hwfp hip
          | ok out =>
            rcases out with ⟨pairs0, st0, nid0⟩
            simp only [hip] at hp
            exact Except.noConfusion hp
      | ok out =>
        rcases out with ⟨pairs0, p0, nid0⟩
        simp only [hp] at h
        by_cases hemp : pairs0.isEmpty
        · rw [if_pos hemp] at h
          cases hrest : tryRound rest c pos nid with
          | error e2 =>
            simp only [hrest] at h
            exact hrec.1 e (by rw [hrest, Except.error.inj h])
          | ok o =>
            cases o with
            | none => simp [hrest] at h
            | some m => simp [hrest] at h
        · rw [if_neg hemp] at h
          exact Except.noConfusion h
    · intro ps2 nid2 pairs h
      rw [tryRound] at h
      cases hp : p.process c pos nid with
      | error e2 =>
        simp only [hp] at h
        exact Except.noConfusion h
      | ok out =>
        rcases out with ⟨pairs0, p0, nid0⟩
        simp only [hp] at h
        by_cases hemp : pairs0.isEmpty
        · rw [if_pos hemp] at h
          cases hrest : tryRound rest c pos nid with
          | error e2 =>
            simp only [hrest] at h
            exact Except.noConfusion h
          | ok o =>
            cases o with
            | none =>
              simp only [hrest, Except.ok.injEq] at h
              exact Option.noConfusion h
            | some m =>
              rcases m with ⟨rest2, nid3, pairs3⟩
              simp only [hrest, Except.ok.injEq, Option.some.injEq, Prod.mk.injEq] at h
              obtain ⟨hps, -, -⟩ := h
              intro q hq
              rw [← hps] at hq
              rcases List.mem_cons.mp hq with hq | hq
              · rw [hq]; exact hwfp
              · exact (hrec.2 rest2 nid3 pairs3 hrest) q hq
        · rw [if_neg hemp] at h
          simp only [Except.ok.injEq, Option.some.injEq, Prod.mk.injEq] at h
          obtain ⟨hps, -, -⟩ := h
          intro q hq
          rw [← hps] at hq
          rcases List.mem_cons.mp hq with hq | hq
          · rw [hq]
            cases p with
            | matcher m =>
              rw [matcher_process_shape m c pos nid pairs0 p0 nid0 hp]
              exact trivial
            | indent st =>
              rw [Proc.process] at hp
              cases hip : indentProcess st c pos nid with
              | error e3 =>
                simp only [hip] at hp
                exact Except.noConfusion hp
              | ok out2 =>
                rcases out2 with ⟨pairs4, st4, nid4⟩
                simp only [hip, Except.ok.injEq, Prod.mk.injEq] at hp
                rw [← hp.2.1]
                exact indentProcess_wf st c pos nid pairs4 st4 nid4 hwfp hip
          · exact hwfr q hq

/-- The driving loop raises only processor errors. -/
theorem tokLoop_error (fuel : Nat) :
    ∀ (ps : List Proc) (c : Str) (pos nid : Nat) (r : Res) (tr : List RoundT) (e : Str),
      (∀ p ∈ ps, ProcWF p) →
      tokLoop fuel ps c pos nid r tr = some (Except.error e) →
      e = mixedIndentMsg ∨ ∃ d, e = invalidIndentMsg d := by
  induction fuel with
  | zero =>
    intro ps c pos nid r tr e hwf h
    simp [tokLoop] at h
  | succ f ih =>
    intro ps c pos nid r tr e hwf h
    rw [tokLoop] at h
    cases htr : tryRound ps c pos nid with
    | error e2 =>
      rw [htr] at h
      have := (tryRound_shape ps c pos nid hwf).1 e2 htr
      simp only [Option.some.injEq] at h
      rw [Except.error.inj h] at this
      exact this
    | ok o =>
      rw [htr] at h
      cases o with
      | none => simp at h
      | some m =>
        rcases m with ⟨ps2, nid2, pairs⟩
        simp only at h
        exact ih ps2 c _ nid2 _ _ e
          ((tryRound_shape ps c pos nid hwf).2 ps2 nid2 pairs htr) h

/-- C9 amended: every failure of `tokenize` is a `TokenizerError`, but only
the no-processor-matched failure carries the rendered diagnostic pointer
(`"Unable to tokenize:\n"` followed by `makePointer` at the stuck offset); a
processor's semantic error propagates with its plain message — `"mixed
indent"` or `"invalid indent multiply, should be <divider>"` — without a
pointer. -/
theorem C9_amended (fuel : Nat) (ps : List Proc) (c : Str) (e : Str)
    (hwf : ∀ p ∈ ps, ProcWF p)
    (h : tokenizeF fuel ps c = some (Except.error e)) :
    (∃ off, e = unableMsg c off) ∨ e = mixedIndentMsg ∨ ∃ d, e = invalidIndentMsg d := by
  cases hloop : tokLoop fuel ps c 0 0 emptyRes [] with
  | none => simp [tokenizeF, hloop] at h
  | some x =>
    cases x with
    | error e2 =>
      simp only [tokenizeF, hloop, Option.some.injEq, Except.error.injEq] at h
      rw [← h]
      exact Or.inr (tokLoop_error fuel ps c 0 0 emptyRes [] e2 hwf hloop)
    | ok st =>
      rcases st with ⟨ps2, pos, nid, r, tr⟩
      simp only [tokenizeF, hloop] at h
      by_cases hpos : pos ≠ c.length
      · rw [if_pos hpos] at h
        simp only [Option.some.injEq, Except.error.injEq] at h
        exact Or.inl ⟨pos, h.symm⟩
      · rw [if_neg hpos] at h
        simp at h

theorem procsA_wf : ∀ p ∈ procsA, ProcWF p := by
  intro p hp
  simp only [procsA, List.mem_cons, List.mem_singleton] at hp
  rcases hp with hp | hp | hp | hp
  · rw [hp]; exact ⟨fun hh => absurd rfl hh, fun _ => rfl⟩
  · rw [hp]; exact trivial
  · rw [hp]; exact trivial
  · exact absurd hp (List.not_mem_nil p)

/-- Witness for C9 amended on the concrete mixed-indent failure of
`"a\n\tb\n  c"`. -/
theorem C9_amended_witness :
    (∃ off, mixedIndentMsg = unableMsg srcMixed off) ∨
    mixedIndentMsg = mixedIndentMsg ∨ ∃ d, mixedIndentMsg = invalidIndentMsg d := by
  exact C9_amended 20 procsA srcMixed mixedIndentMsg procsA_wf
    (errOf_eq (by decide))

/-! ## C2 amended: progress and termination

The repository's stateless processors are anchored regex matchers, so a match
consumes a positive number of characters and ends inside the input;
`MatcherOK` captures exactly that.  The indent processor breaks the claimed
positivity: a dedent to depth 0 reports consumed length `newLevel = 0`.  The
loop still terminates, because such a round zeroes that processor's depth and
a depth can only be re-raised by a round that advances the cursor. -/

def MatcherOK (m : Matcher) : Prop :=
  ∀ (c : Str) (off : Nat) (r : Option Tok × Nat),
    m.matchAt c off = some r → 0 < r.2 ∧ off + r.2 ≤ c.length

def ProcOK (len : Nat) : Proc → Prop
  | .matcher m => MatcherOK m
  | .indent st => st.level ≤ len

/-- Does this processor hold a positive indent depth? -/
def bitOf : Proc → Nat
  | .matcher _ => 0
  | .indent st => if st.level = 0 then 0 else 1

def bitSum (ps : List Proc) : Nat := (ps.map bitOf).sum

/-- Total consumed length of one step's pairs. -/
def pairsSum (pairs : List (Option (Nat × Tok) × Nat)) : Nat :=
  (pairs.map (fun pr => pr.2)).sum

theorem bitOf_le_one (p : Proc) : bitOf p ≤ 1 := by
  cases p with
  | matcher m => exact Nat.zero_le 1
  | indent st =>
    rw [bitOf]
    by_cases h : st.level = 0
    · rw [if_pos h]; omega
    · rw [if_neg h]

theorem bitSum_le_length (ps : List Proc) : bitSum ps ≤ ps.length := by
  induction ps with
  | nil => simp [bitSum]
  | cons p rest ih =>
    simp only [bitSum, List.map_cons, List.sum_cons, List.length_cons]
    have := bitOf_le_one p
    simp only [bitSum] at ih
    omega

theorem applyPairs_pos (pairs : List (Option (Nat × Tok) × Nat)) :
    ∀ (r : Res) (pos : Nat), (applyPairs r pos pairs).2.1 = pos + pairsSum pairs := by
  induction pairs with
  | nil => intro r pos; simp [applyPairs, pairsSum]
  | cons pr rest ih =>
    intro r pos
    rcases pr with ⟨ot, k⟩
    simp only [applyPairs, pairsSum, List.map_cons, List.sum_cons]
    rw [ih]
    simp [pairsSum]
    omega

theorem applyPairs_mem (pairs : List (Option (Nat × Tok) × Nat)) :
    ∀ (r : Res) (pos : Nat) (e : PairT), e ∈ (applyPairs r pos pairs).2.2 →
      ∃ pr ∈ pairs, e.consumed = pr.2 ∧ e.tok = pr.1 := by
  induction pairs with
  | nil => intro r pos e he; simp [applyPairs] at he
  | cons pr rest ih =>
    intro r pos e he
    rcases pr with ⟨ot, k⟩
    simp only [applyPairs, List.mem_cons] at he
    rcases he with he | he
    · exact ⟨(ot, k), by simp, by rw [he], by rw [he]⟩
    · obtain ⟨pr2, hpr2, h1, h2⟩ := ih _ (pos + k) e he
      exact ⟨pr2, by simp [hpr2], h1, h2⟩

theorem takeWhile_len_le (p : Char → Bool) (l : Str) : (l.takeWhile p).length ≤ l.length := by
  induction l with
  | nil => simp
  | cons a l2 ih =>
    rw [List.takeWhile_cons]
    by_cases hp : p a = true
    · rw [if_pos hp]
      simp only [List.length_cons]
      omega
    · rw [if_neg hp]
      simp

/-- A successful indent match needs at least its second character inside the
input, so the anchor offset is strictly inside it. -/
theorem indentMatch_pos_lt (c : Str) (off : Nat) (r : Nat × Nat)
    (h : indentMatch c (off - 1) = some r) : off < c.length := by
  cases hg : c.get? (off - 1) with
  | none => simp only [indentMatch, hg] at h; exact Option.noConfusion h
  | some ch =>
    simp only [indentMatch, hg] at h
    by_cases hnl : ch = '\n'
    · rw [if_pos hnl] at h
      cases hg1 : c.get? (off - 1 + 1) with
      | none => simp only [hg1] at h; exact Option.noConfusion h
      | some c1 =>
        have hlt : off - 1 + 1 < c.length := by
          obtain ⟨hh, -⟩ := List.get?_eq_some.mp hg1
          exact hh
        omega
    · rw [if_neg hnl] at h
      exact Option.noConfusion h

/-- Every indent match ends inside the input. -/
theorem indentMatch_end_le (c : Str) (p : Nat) (li e0 : Nat)
    (h : indentMatch c p = some (li, e0)) : e0 ≤ c.length := by
  cases hg : c.get? p with
  | none => simp only [indentMatch, hg] at h; exact Option.noConfusion h
  | some ch =>
    simp only [indentMatch, hg] at h
    by_cases hnl : ch = '\n'
    · rw [if_pos hnl] at h
      cases hg1 : c.get? (p + 1) with
      | none => simp only [hg1] at h; exact Option.noConfusion h
      | some c1 =>
        have hlt : p + 1 < c.length := by
          obtain ⟨hh, -⟩ := List.get?_eq_some.mp hg1
          exact hh
        simp only [hg1] at h
        have hrun1 : ((c.drop (p + 1)).takeWhile (fun x => x = '\t')).length
            ≤ c.length - (p + 1) := by
          calc ((c.drop (p + 1)).takeWhile (fun x => x = '\t')).length
              ≤ (c.drop (p + 1)).length := takeWhile_len_le _ _
            _ = c.length - (p + 1) := List.length_drop _ _
        have hrun2 : ((c.drop (p + 1)).takeWhile (fun x => x = ' ')).length
            ≤ c.length - (p + 1) := by
          calc ((c.drop (p + 1)).takeWhile (fun x => x = ' ')).length
              ≤ (c.drop (p + 1)).length := takeWhile_len_le _ _
            _ = c.length - (p + 1) := List.length_drop _ _
        by_cases ht : c1 = '\t'
        · rw [if_pos ht] at h
          simp only [Option.some.injEq, Prod.mk.injEq] at h
          omega
        · rw [if_neg ht] at h
          by_cases hs : c1 = ' '
          · rw [if_pos hs] at h
            simp only [Option.some.injEq, Prod.mk.injEq] at h
            omega
          · rw [if_neg hs] at h
            simp only [Option.some.injEq, Prod.mk.injEq] at h
            omega
    · rw [if_neg hnl] at h
      exact Option.noConfusion h

theorem pairsSum_replicate (k : Nat) (pr : Option (Nat × Tok) × Nat) :
    pairsSum (List.replicate k pr) = k * pr.2 := by
  induction k with
  | zero => simp [pairsSum]
  | succ n ih =>
    rw [List.replicate_succ]
    simp only [pairsSum, List.map_cons, List.sum_cons]
    simp only [pairsSum] at ih
    rw [ih]
    ring

/-- The three shapes of a successful `indentCore` call. -/
theorem indentCore_ok_cases (st : IndentState) (nl nid : Nat)
    (pairs : List (Option (Nat × Tok) × Nat)) (st2 : IndentState) (nid2 : Nat)
    (h : indentCore st nl nid = .ok (pairs, st2, nid2)) :
    (pairs = [] ∧ st2.level = st.level) ∨
    (pairs = [(none, nl)] ∧ nl = st.level ∧ nl ≠ 0 ∧ st2.level = st.level) ∨
    (∃ k tok, pairs = List.replicate k (some (nid, tok), nl) ∧ 1 ≤ k ∧
      st2.level = nl ∧ nl ≠ st.level ∧
      (st.level ≥ nl → k * st.divider = st.level - nl) ∧
      (¬ st.level ≥ nl → k * st.divider = nl - st.level) ∧
      1 ≤ st.divider ∧
      (nl = 0 → tok = Tok.scopeEnd)) := by
  simp only [indentCore] at h
  by_cases h1 : nl = st.level
  · rw [if_neg (fun hh => hh h1)] at h
    by_cases h4 : nl ≠ 0
    · rw [if_pos h4] at h
      by_cases ham : st.allowMixed = true
      · rw [if_pos ham] at h
        simp only [Except.ok.injEq, Prod.mk.injEq] at h
        obtain ⟨hp, hst, -⟩ := h
        refine Or.inr (Or.inl ⟨hp.symm, h1, h4, ?_⟩)
        rw [← hst]
      · rw [if_neg ham] at h
        simp only [Except.ok.injEq, Prod.mk.injEq] at h
        obtain ⟨hp, hst, -⟩ := h
        refine Or.inr (Or.inl ⟨hp.symm, h1, h4, ?_⟩)
        rw [← hst]
    · rw [if_neg h4] at h
      simp only [Except.ok.injEq, Prod.mk.injEq] at h
      obtain ⟨hp, hst, -⟩ := h
      refine Or.inl ⟨hp.symm, ?_⟩
      rw [← hst]
  · rw [if_pos h1] at h
    by_cases h2 : st.divider = 0
    · rw [if_pos h2] at h
      exact Except.noConfusion h
    · rw [if_neg h2] at h
      by_cases h3 : (if st.level ≥ nl then st.level - nl else nl - st.level) % st.divider ≠ 0
      · rw [if_pos h3] at h
        exact Except.noConfusion h
      · rw [if_neg h3] at h
        simp only [not_not] at h3
        simp only [Except.ok.injEq, Prod.mk.injEq] at h
        obtain ⟨hp, hst, -⟩ := h
        have hdvd := Nat.dvd_of_mod_eq_zero h3
        have hdiffpos : 1 ≤ (if st.level ≥ nl then st.level - nl else nl - st.level) := by
          by_cases hge : st.level ≥ nl
          · rw [if_pos hge]; omega
          · rw [if_neg hge]; omega
        refine Or.inr (Or.inr
          ⟨(if st.level ≥ nl then st.level - nl else nl - st.level) / st.divider,
            (if nl > st.level then Tok.scopeStart else Tok.scopeEnd),
            hp.symm,
            Nat.div_pos (Nat.le_of_dvd hdiffpos hdvd) (by omega),
            by rw [← hst],
            h1, ?_, ?_, by omega, ?_⟩)
        · intro hge
          rw [if_pos hge]
          rw [if_pos hge] at hdvd
          exact Nat.div_mul_cancel hdvd
        · intro hge
          rw [if_neg hge]
          rw [if_neg hge] at hdvd
          exact Nat.div_mul_cancel hdvd
        · intro h0
          have : ¬ nl > st.level := by omega
          rw [if_neg this]

/-- A matched step of any processor: state stays well-bounded, the cursor is
strictly inside the input, the consumed total is bounded, a zero-consumed step
comes from an indent dedent to depth 0, and each zero-consumed pair carries a
scope-end token. -/
theorem process_progress (p : Proc) (c : Str) (pos nid : Nat)
    (pairs : List (Option (Nat × Tok) × Nat)) (p2 : Proc) (nid2 : Nat)
    (hok : ProcOK c.length p)
    (h : p.process c pos nid = .ok (pairs, p2, nid2))
    (hne : pairs ≠ []) :
    ProcOK c.length p2 ∧ pos < c.length ∧ pairsSum pairs ≤ c.length * c.length ∧
    (pairsSum pairs = 0 → bitOf p = 1 ∧ bitOf p2 = 0) ∧
    (∀ pr ∈ pairs, pr.2 = 0 → ∃ id, pr.1 = some (id, Tok.scopeEnd)) := by
  cases p with
  | matcher m =>
    rw [Proc.process] at h
    cases hm : m.matchAt c pos with
    | none =>
      simp only [hm, Except.ok.injEq, Prod.mk.injEq] at h
      exact absurd h.1.symm hne
    | some r =>
      rcases r with ⟨ot, k⟩
      have hmk := hok c pos (ot, k) hm
      have hlen1 : 1 ≤ c.length := by omega
      have hkk : k ≤ c.length * c.length := by
        have : c.length ≤ c.length * c.length := by
          calc c.length = c.length * 1 := by ring
            _ ≤ c.length * c.length := Nat.mul_le_mul_left _ hlen1
        omega
      cases ot with
      | none =>
        simp only [hm, Except.ok.injEq, Prod.mk.injEq] at h
        obtain ⟨hp, hp2, -⟩ := h
        rw [← hp, ← hp2]
        refine ⟨hok, by omega, by simpa [pairsSum] using hkk, ?_, ?_⟩
        · intro hz
          simp [pairsSum] at hz
          omega
        · intro pr hpr h0
          simp only [List.mem_singleton] at hpr
          rw [hpr] at h0
          simp at h0
          omega
      | some t =>
        simp only [hm, Except.ok.injEq, Prod.mk.injEq] at h
        obtain ⟨hp, hp2, -⟩ := h
        rw [← hp, ← hp2]
        refine ⟨hok, by omega, by simpa [pairsSum] using hkk, ?_, ?_⟩
        · intro hz
          simp [pairsSum] at hz
          omega
        · intro pr hpr h0
          simp only [List.mem_singleton] at hpr
          rw [hpr] at h0
          simp at h0
          omega
  | indent st =>
    rw [Proc.process] at h
    cases hip : indentProcess st c pos nid with
    | error e => simp only [hip] at h; exact Except.noConfusion h
    | ok out =>
      rcases out with ⟨pairs0, st0, nid0⟩
      simp only [hip, Except.ok.injEq, Prod.mk.injEq] at h
      obtain ⟨hp, hp2, -⟩ := h
      subst hp
      subst hp2
      -- analyse indentProcess
      cases hmm2 : indentMatch c (pos - 1) with
      | none =>
        simp only [indentProcess, hmm2, Except.ok.injEq, Prod.mk.injEq] at hip
        exact absurd hip.1.symm hne
      | some r =>
        rcases r with ⟨li, e0⟩
        have hposlt : pos < c.length := indentMatch_pos_lt c pos (li, e0) hmm2
        have hende : e0 ≤ c.length := indentMatch_end_le c (pos - 1) li e0 hmm2
        have hlev : st.level ≤ c.length := hok
        by_cases h3 : li = 3
        · have h5 : indentProcess st c pos nid = indentCore st 0 nid := by
            simp [indentProcess, hmm2, h3]
          rw [h5] at hip
          rcases indentCore_ok_cases st 0 nid pairs0 st0 nid0 hip with
            ⟨he, -⟩ | ⟨-, -, h0, -⟩ | ⟨k, tok, hrep, hk1, hl2, hnee, -, -, -, htok⟩
          · exact absurd he hne
          · exact absurd rfl h0
          · have hsum : pairsSum pairs0 = 0 := by
              rw [hrep, pairsSum_replicate]
              simp
            refine ⟨?_, hposlt, by omega, ?_, ?_⟩
            · show st0.level ≤ c.length
              omega
            · intro _
              constructor
              · show bitOf (Proc.indent st) = 1
                rw [bitOf, if_neg (by omega)]
              · show bitOf (Proc.indent st0) = 0
                rw [bitOf, if_pos (by omega)]
            · intro pr hpr h0
              rw [hrep] at hpr
              rw [List.eq_of_mem_replicate hpr]
              exact ⟨nid, by rw [htok rfl]⟩
        · have hnl1 : 1 ≤ e0 - pos := by
            have := indentMatch_nl_pos c pos li e0 hmm2 h3
            omega
          have hnlen : e0 - pos ≤ c.length := by omega
          have hcore : ∃ stc : IndentState,
              indentCore stc (e0 - pos) nid = .ok (pairs0, st0, nid0) ∧
              stc.level = st.level := by
            by_cases hmode : st.mode = none
            · refine ⟨{ st with mode := some li, divider := e0 - pos }, ?_, rfl⟩
              have h5 : indentProcess st c pos nid
                  = indentCore { st with mode := some li, divider := e0 - pos }
                      (e0 - pos) nid := by
                simp [indentProcess, hmm2, h3, hmode]
              rw [← h5]
              exact hip
            · by_cases heq : st.mode = some li
              · refine ⟨st, ?_, rfl⟩
                have h5 : indentProcess st c pos nid = indentCore st (e0 - pos) nid := by
                  simp [indentProcess, hmm2, h3, heq]
                rw [← h5]
                exact hip
              · have h5 : indentProcess st c pos nid = .error mixedIndentMsg := by
                  simp [indentProcess, hmm2, h3, hmode, heq]
                rw [h5] at hip
                exact absurd hip (by simp)
          obtain ⟨stc, hcok, hclev⟩ := hcore
          rcases indentCore_ok_cases stc (e0 - pos) nid pairs0 st0 nid0 hcok with
            ⟨he, -⟩ | ⟨hpr, hle, -, hl2⟩ | ⟨k, tok, hrep, hk1, hl2, hnee, hge, hlt, hd1, -⟩
          · exact absurd he hne
          · have hsum : pairsSum pairs0 = e0 - pos := by
              rw [hpr]
              simp [pairsSum]
            refine ⟨?_, hposlt, ?_, ?_, ?_⟩
            · show st0.level ≤ c.length
              omega
            · have hlen1 : 1 ≤ c.length := by omega
              have : c.length ≤ c.length * c.length := by
                calc c.length = c.length * 1 := by ring
                  _ ≤ c.length * c.length := Nat.mul_le_mul_left _ hlen1
              omega
            · intro hz
              omega
            · intro pr hpr2 h0
              rw [hpr] at hpr2
              simp only [List.mem_singleton] at hpr2
              rw [hpr2] at h0
              simp at h0
              omega
          · have hsum : pairsSum pairs0 = k * (e0 - pos) := by
              rw [hrep, pairsSum_replicate]
            have hkbound : k ≤ c.length := by
              by_cases hge2 : stc.level ≥ e0 - pos
              · have := hge hge2
                have : k ≤ k * stc.divider := by
                  calc k = k * 1 := by ring
                    _ ≤ k * stc.divider := Nat.mul_le_mul_left _ hd1
                omega
              · have := hlt hge2
                have : k ≤ k * stc.divider := by
                  calc k = k * 1 := by ring
                    _ ≤ k * stc.divider := Nat.mul_le_mul_left _ hd1
                omega
            have hsumb : pairsSum pairs0 ≤ c.length * c.length := by
              rw [hsum]
              exact Nat.mul_le_mul hkbound hnlen
            refine ⟨?_, hposlt, hsumb, ?_, ?_⟩
            · show st0.level ≤ c.length
              omega
            · intro hz
              rw [hsum] at hz
              have : e0 - pos = 0 := by
                rcases Nat.mul_eq_zero.mp hz with hz2 | hz2
                · omega
                · exact hz2
              omega
            · intro pr hpr2 h0
              rw [hrep] at hpr2
              rw [List.eq_of_mem_replicate hpr2] at h0
              simp at h0
              omega

/-- A matched round: the winning processor's facts lifted to the list. -/
theorem tryRound_progress (ps : List Proc) :
    ∀ (c : Str) (pos nid : Nat),
      (∀ p ∈ ps, ProcOK c.length p) →
      ∀ ps2 nid2 pairs, tryRound ps c pos nid = .ok (some (ps2, nid2, pairs)) →
        (∀ p ∈ ps2, ProcOK c.length p) ∧
        ps2.length = ps.length ∧
        pairs ≠ [] ∧
        pos < c.length ∧
        pairsSum pairs ≤ c.length * c.length ∧
        (pairsSum pairs = 0 → bitSum ps2 + 1 = bitSum ps) ∧
        bitSum ps2 ≤ bitSum ps + 1 ∧
        (∀ pr ∈ pairs, pr.2 = 0 → ∃ id, pr.1 = some (id, Tok.scopeEnd)) := by
  induction ps with
  | nil =>
    intro c pos nid hok ps2 nid2 pairs h
    simp [tryRound] at h
  | cons p rest ih =>
    intro c pos nid hok ps2 nid2 pairs h
    have hokp : ProcOK c.length p := hok p (by simp)
    have hokr : ∀ q ∈ rest, ProcOK c.length q := fun q hq => hok q (by simp [hq])
    rw [tryRound] at h
    cases hp : p.process c pos nid with
    | error e =>
      simp only [hp] at h
      exact Except.noConfusion h
    | ok out =>
      rcases out with ⟨pairs0, p0, nid0⟩
      simp only [hp] at h
      by_cases hemp : pairs0.isEmpty
      · rw [if_pos hemp] at h
        cases hrest : tryRound rest c pos nid with
        | error e =>
          simp only [hrest] at h
          exact Except.noConfusion h
        | ok o =>
          cases o with
          | none =>
            simp only [hrest, Except.ok.injEq] at h
            exact Option.noConfusion h
          | some m =>
            rcases m with ⟨rest2, nid3, pairs3⟩
            simp only [hrest, Except.ok.injEq, Option.some.injEq, Prod.mk.injEq] at h
            obtain ⟨hps, hnid, hpr⟩ := h
            subst hps
            subst hnid
            subst hpr
            obtain ⟨ih1, ih2, ih3, ih4, ih5, ih6, ih7, ih8⟩ :=
              ih c pos nid hokr rest2 nid3 pairs3 hrest
            refine ⟨?_, by simp [ih2], ih3, ih4, ih5, ?_, ?_, ih8⟩
            · intro q hq
              rcases List.mem_cons.mp hq with hq | hq
              · rw [hq]; exact hokp
              · exact ih1 q hq
            · intro hz
              have := ih6 hz
              simp only [bitSum, List.map_cons, List.sum_cons]
              simp only [bitSum] at this
              omega
            · have := ih7
              simp only [bitSum, List.map_cons, List.sum_cons]
              simp only [bitSum] at this
              omega
      · rw [if_neg hemp] at h
        simp only [Except.ok.injEq, Option.some.injEq, Prod.mk.injEq] at h
        obtain ⟨hps, hnid, hpr⟩ := h
        subst hps
        subst hnid
        subst hpr
        have hne0 : pairs0 ≠ [] := by
          intro hnil
          rw [hnil] at hemp
          simp at hemp
        obtain ⟨pg1, pg2, pg3, pg4, pg5⟩ :=
          process_progress p c pos nid pairs0 p0 nid0 hokp hp hne0
        refine ⟨?_, by simp, hne0, pg2, pg3, ?_, ?_, pg5⟩
        · intro q hq
          rcases List.mem_cons.mp hq with hq | hq
          · rw [hq]; exact pg1
          · exact hokr q hq
        · intro hz
          obtain ⟨hb1, hb2⟩ := pg4 hz
          simp only [bitSum, List.map_cons, List.sum_cons]
          omega
        · have h1 := bitOf_le_one p0
          have h2 := bitOf_le_one p
          simp only [bitSum, List.map_cons, List.sum_cons]
          omega

/-- The driving loop halts within a quadratic fuel budget: every matched round
strictly increases the measure `2*pos + (N - bitSum)`. -/
theorem tokLoop_term (fuel : Nat) :
    ∀ (ps : List Proc) (c : Str) (pos nid : Nat) (r : Res) (tr : List RoundT),
      (∀ p ∈ ps, ProcOK c.length p) →
      pos ≤ (c.length + 1) * (c.length + 1) →
      2 * ((c.length + 1) * (c.length + 1)) + ps.length + 2
        ≤ fuel + (2 * pos + (ps.length - bitSum ps)) →
      (tokLoop fuel ps c pos nid r tr).isSome := by
  induction fuel with
  | zero =>
    intro ps c pos nid r tr hok hpos hfuel
    have hb := bitSum_le_length ps
    omega
  | succ f ih =>
    intro ps c pos nid r tr hok hpos hfuel
    rw [tokLoop]
    cases htr : tryRound ps c pos nid with
    | error e => simp
    | ok o =>
      cases o with
      | none => simp
      | some m =>
        rcases m with ⟨ps2, nid2, pairs⟩
        simp only
        obtain ⟨hok2, hlen, hne, hposlt, hsumb, hstall, hbound, -⟩ :=
          tryRound_progress ps c pos nid hok ps2 nid2 pairs htr
        have hpos2e : (applyPairs r pos pairs).2.1 = pos + pairsSum pairs :=
          applyPairs_pos pairs r pos
        have hexp : (c.length + 1) * (c.length + 1)
            = c.length * c.length + 2 * c.length + 1 := by ring
        apply ih ps2 c _ nid2 _ _ hok2
        · rw [hpos2e]
          omega
        · rw [hpos2e, hlen]
          have hb := bitSum_le_length ps
          have hb2 := bitSum_le_length ps2
          rw [hlen] at hb2
          by_cases hz : pairsSum pairs = 0
          · have := hstall hz
            omega
          · omega

/-- Zero-consumed pairs in the accumulated trace always carry scope-end
tokens. -/
theorem tokLoop_zero (fuel : Nat) :
    ∀ (ps : List Proc) (c : Str) (pos nid : Nat) (r : Res) (tr : List RoundT)
      (ps2 : List Proc) (pos2 nid2 : Nat) (r2 : Res) (tr2 : List RoundT),
      (∀ p ∈ ps, ProcOK c.length p) →
      (∀ rd ∈ tr, ∀ e ∈ rd.pairs, e.consumed = 0 → ∃ id, e.tok = some (id, Tok.scopeEnd)) →
      tokLoop fuel ps c pos nid r tr = some (Except.ok (ps2, pos2, nid2, r2, tr2)) →
      ∀ rd ∈ tr2, ∀ e ∈ rd.pairs, e.consumed = 0 → ∃ id, e.tok = some (id, Tok.scopeEnd) := by
  induction fuel with
  | zero =>
    intro ps c pos nid r tr ps2 pos2 nid2 r2 tr2 hok htr h
    simp [tokLoop] at h
  | succ f ih =>
    intro ps c pos nid r tr ps2 pos2 nid2 r2 tr2 hok htr h
    rw [tokLoop] at h
    cases hround : tryRound ps c pos nid with
    | error e => rw [hround] at h; simp at h
    | ok o =>
      rw [hround] at h
      cases o with
      | none =>
        simp only [Option.some.injEq, Except.ok.injEq, Prod.mk.injEq] at h
        obtain ⟨-, -, -, -, h5⟩ := h
        rw [← h5]
        exact htr
      | some m =>
        rcases m with ⟨ps3, nid3, pairs⟩
        simp only at h
        obtain ⟨hok2, -, -, -, -, -, -, hzero⟩ :=
          tryRound_progress ps c pos nid hok ps3 nid3 pairs hround
        refine ih ps3 c _ nid3 _ _ ps2 pos2 nid2 r2 tr2 hok2 ?_ h
        intro rd hrd e he hc
        rcases List.mem_append.mp hrd with hin | hin
        · exact htr rd hin e he hc
        · simp only [List.mem_singleton] at hin
          rw [hin] at he
          obtain ⟨pr, hpr, hc2, ht2⟩ := applyPairs_mem pairs r pos e he
          obtain ⟨id, hid⟩ := hzero pr hpr (by omega)
          exact ⟨id, by rw [ht2, hid]⟩

/-- C2 amended: the claimed positivity fails — the indent processor's dedent
to depth 0 reports pairs with consumed length 0, so a matched round can leave
`pos` unchanged — but those are the only zero-consumed pairs (each carries a
scope-end token emitted while zeroing the depth), and the driving loop still
terminates on every finite input: when the stateless matchers consume
positively and stay inside the input, fuel quadratic in the input length
suffices, because a stalled round zeroes an indent depth and re-raising a
depth requires consuming input. -/
theorem C2_amended (ps : List Proc) (c : Str)
    (hok : ∀ p ∈ ps, ProcOK c.length p) :
    (tokenizeF (2 * ((c.length + 1) * (c.length + 1)) + ps.length + 2) ps c).isSome ∧
    (∀ fuel out, tokenizeF fuel ps c = some (Except.ok out) →
      ∀ rd ∈ out.trace, ∀ e ∈ rd.pairs, e.consumed = 0 →
        ∃ id, e.tok = some (id, Tok.scopeEnd)) := by
  constructor
  · have hloop := tokLoop_term (2 * ((c.length + 1) * (c.length + 1)) + ps.length + 2)
      ps c 0 0 emptyRes [] hok (by omega) (by
        have hb := bitSum_le_length ps
        omega)
    cases hl : tokLoop (2 * ((c.length + 1) * (c.length + 1)) + ps.length + 2)
        ps c 0 0 emptyRes [] with
    | none => rw [hl] at hloop; simp at hloop
    | some x =>
      cases x with
      | error e => simp [tokenizeF, hl]
      | ok st =>
        rcases st with ⟨ps2, pos, nid, r, tr⟩
        by_cases hpos : pos ≠ c.length
        · simp [tokenizeF, hl, hpos]
        · simp [tokenizeF, hl, hpos]
  · intro fuel out h
    cases hloop : tokLoop fuel ps c 0 0 emptyRes [] with
    | none => simp [tokenizeF, hloop] at h
    | some x =>
      cases x with
      | error e => simp [tokenizeF, hloop] at h
      | ok st =>
        rcases st with ⟨ps2, pos, nid, r, tr⟩
        simp only [tokenizeF, hloop] at h
        by_cases hpos : pos ≠ c.length
        · rw [if_pos hpos] at h; simp at h
        · rw [if_neg hpos] at h
          simp only [Option.some.injEq, Except.ok.injEq] at h
          have htr : out.trace = tr := by rw [← h]
          rw [htr]
          exact tokLoop_zero fuel ps c 0 0 emptyRes [] ps2 pos nid r tr hok
            (by intro rd hrd; simp at hrd) hloop

theorem newlineMatcher_ok : MatcherOK newlineMatcher := by
  intro c off r h
  simp only [newlineMatcher] at h
  cases hg : c.get? off with
  | none => simp only [hg] at h; exact Option.noConfusion h
  | some ch =>
    simp only [hg] at h
    obtain ⟨hlt, -⟩ := List.get?_eq_some.mp hg
    by_cases h1 : ch = '\n'
    · rw [if_pos h1] at h
      obtain rfl := Option.some.inj h
      exact ⟨by omega, by omega⟩
    · rw [if_neg h1] at h
      by_cases h2 : ch = '\r'
      · rw [if_pos h2] at h
        cases hg2 : c.get? (off + 1) with
        | none => simp only [hg2] at h; exact Option.noConfusion h
        | some c2 =>
          simp only [hg2] at h
          obtain ⟨hlt2, -⟩ := List.get?_eq_some.mp hg2
          by_cases h3 : c2 = '\n'
          · rw [if_pos h3] at h
            obtain rfl := Option.some.inj h
            exact ⟨by omega, by omega⟩
          · rw [if_neg h3] at h
            exact Option.noConfusion h
      · rw [if_neg h2] at h
        exact Option.noConfusion h

theorem consumingMatcher_ok (chars : List Char) : MatcherOK (consumingMatcher chars) := by
  intro c off r h
  simp only [consumingMatcher] at h
  by_cases hr : ((c.drop off).takeWhile (fun x => chars.contains x)).length = 0
  · rw [if_pos hr] at h
    exact Option.noConfusion h
  · rw [if_neg hr] at h
    obtain rfl := Option.some.inj h
    have hle : ((c.drop off).takeWhile (fun x => chars.contains x)).length
        ≤ (c.drop off).length := takeWhile_len_le _ _
    rw [List.length_drop] at hle
    exact ⟨by omega, by omega⟩

theorem procsA_ok (c : Str) : ∀ p ∈ procsA, ProcOK c.length p := by
  intro p hp
  simp only [procsA, List.mem_cons, List.mem_singleton] at hp
  rcases hp with hp | hp | hp | hp
  · rw [hp]
    show (initIndent false).level ≤ c.length
    simp [initIndent]
  · rw [hp]
    exact newlineMatcher_ok
  · rw [hp]
    exact consumingMatcher_ok letters
  · exact absurd hp (List.not_mem_nil p)

/-- Witness for C2 amended: with the indent + newline + letter-consumer
tokenizer, the quadratic fuel budget suffices on `"a\n\tb\nc"` (length 6), and
the zero-consumed pair of the successful 20-fuel run carries a scope-end
token. -/
theorem C2_amended_witness :
    (tokenizeF (2 * ((srcDedent0.length + 1) * (srcDedent0.length + 1))
        + procsA.length + 2) procsA srcDedent0).isSome ∧
    (∀ rd ∈ traceOf (tokenizeF 20 procsA srcDedent0), ∀ e ∈ rd.pairs,
      e.consumed = 0 → ∃ id, e.tok = some (id, Tok.scopeEnd)) := by
  have h := C2_amended procsA srcDedent0 (procsA_ok srcDedent0)
  refine ⟨h.1, ?_⟩
  obtain ⟨out, hout⟩ := runOk_eq (o := tokenizeF 20 procsA srcDedent0) (by decide)
  have h2 := h.2 20 out hout
  rw [hout]
  simpa only [traceOf] using h2

/-- Witness for C10 at a concrete pair of processors: a one-pattern integer
processor merged with a boolean processor carrying a custom constructor. -/
theorem C10_or_shallow_copy_witness :
    (let a : ValueProc := ⟨[⟨fun _ _ => none⟩], [0], fun _ => none⟩
     let b : ValueProc := ⟨[⟨fun _ _ => none⟩], [3],
       fun t => if t = 3 then some (fun s => ⟨9, s⟩) else none⟩
     b.constructors 3 = some (fun s => ⟨9, s⟩) ∧
       (a.orMerge b).2.constructors 3 = some (fun s => ⟨9, s⟩) ∧
       b.constructors 0 = none ∧
       (a.orMerge b).2.constructors 0 = a.constructors 0 ∧
       (a.orMerge b).2.types = [0, 3]) := by
  refine ⟨rfl, ?_, rfl, ?_, (C10_or_shallow_copy _ _).2.2.1⟩
  · exact (C10_or_shallow_copy _ _).2.2.2.2.2.1 3 _ rfl
  · exact (C10_or_shallow_copy _ _).2.2.2.2.2.2 0 rfl

end RT
